import Mathlib

/-!
Verification of the vault-tools namespace auditor and exporters.

The definitions below are a shallow embedding of the Python sources:
  * `src/src/namespace_audit/main.py` (NamespaceAuditor: audit_cluster,
    _worker, _traverse_namespace, _write_reports),
  * `src/src/common/vault_client.py` (VaultClient.validate_connection,
    VaultClient.get response decoding),
  * `src/src/activity_export/main.py` and `src/src/entity_export/main.py`
    (row transforms and report writing),
  * `src/src/common/file_utils.py` (write_csv).

Python strings are embedded as lists of characters (`PStr`), Python dicts
preserving insertion order as association lists, and the Vault server that
the auditor crawls as a finite tree whose nodes record the responses the
server gives at that namespace path.  The concurrent worker pool is embedded
as the canonical sequential interleaving: one queue item is taken and fully
visited at a time, which is the semantics `queue.join` guarantees at the
level of the shared state observed by the claims.
-/

/-- Embedding of a Python `str`: a finite sequence of characters. -/
abbrev PStr := List Char

/-- Embedding of Python `s.rstrip("/")`: remove every trailing slash. -/
def rstripSlash (s : PStr) : PStr :=
  ((s.reverse).dropWhile (fun c => c = '/')).reverse

/-- The value stored in `key_info` for one child namespace
(`{id, custom_metadata}`); its internals are opaque to the auditor. -/
structure NsInfo where
  id : PStr
  meta : PStr
deriving DecidableEq, Repr

/-- A `data` mapping returned by `list_auth_methods` or
`list_mounted_secrets_engines`: mount path to mount type. -/
abbrev Mounts := List (PStr × PStr)

/-- Outcome of `client.sys.list_namespaces()` at one node, as distinguished
by `_traverse_namespace`: a successful listing, an `InvalidPath` (404,
silently treated as a leaf), or any other exception (caught by the outer
handlers, which count an error). -/
inductive ListStatus where
  | ok
  | invalidPath
  | errored
deriving DecidableEq, Repr

/-- The Vault server as seen from one namespace: the node records the name
this namespace has inside its parent (a `key_info` key such as `"team-a/"`),
its `key_info` value, the result of the two mount listings (`none` when
either of them raises Forbidden or a generic exception), the outcome of the
child listing, and the child namespaces themselves (in the iteration order
of the returned `key_info` mapping). -/
inductive NsTree where
  | node (name : PStr) (info : NsInfo) (mounts : Option (Mounts × Mounts))
      (cstat : ListStatus) (children : List NsTree)

def NsTree.name : NsTree → PStr
  | .node n _ _ _ _ => n

def NsTree.info : NsTree → NsInfo
  | .node _ i _ _ _ => i

def NsTree.mounts : NsTree → Option (Mounts × Mounts)
  | .node _ _ m _ _ => m

def NsTree.cstat : NsTree → ListStatus
  | .node _ _ _ c _ => c

def NsTree.children : NsTree → List NsTree
  | .node _ _ _ _ cs => cs

mutual

/-- Number of nodes of a namespace tree. -/
def NsTree.size : NsTree → Nat
  | .node _ _ _ _ cs => 1 + sizeList cs

def sizeList : List NsTree → Nat
  | [] => 0
  | c :: rest => NsTree.size c + sizeList rest

end

mutual

/-- Depth of a namespace tree (a single node has depth 1). -/
def NsTree.depth : NsTree → Nat
  | .node _ _ _ _ cs => 1 + depthList cs

def depthList : List NsTree → Nat
  | [] => 0
  | c :: rest => max (NsTree.depth c) (depthList rest)

end

mutual

/-- Maximal fan-out (number of children) over all nodes of the tree. -/
def NsTree.fanout : NsTree → Nat
  | .node _ _ _ _ cs => max cs.length (fanoutList cs)

def fanoutList : List NsTree → Nat
  | [] => 0
  | c :: rest => max (NsTree.fanout c) (fanoutList rest)

end

/-- A well-formed namespace name as Vault produces them in `key_info`:
a nonempty slash-free segment followed by a single trailing `/`. -/
def goodNameB (n : PStr) : Bool :=
  !n.dropLast.isEmpty && !(n.dropLast.contains '/') && (n.getLast? == some '/')

/-- Distinctness of a list of paths (the keys of a Python dict
are necessarily distinct). -/
def nodupPathsB : List PStr → Bool
  | [] => true
  | x :: rest => !(rest.contains x) && nodupPathsB rest

mutual

/-- Well-formed server tree: every node has well-formed child names and the
sibling names are pairwise distinct (they are keys of one `key_info` dict). -/
def NsTree.wfB : NsTree → Bool
  | .node _ _ _ _ cs => nodupPathsB (cs.map NsTree.name) && wfListB cs

def wfListB : List NsTree → Bool
  | [] => true
  | c :: rest => goodNameB c.name && NsTree.wfB c && wfListB rest

end

mutual

/-- All namespace paths of the tree rooted at path `p` (the paths the
traversal could ever construct from this subtree), in preorder. -/
def allPathsFrom (p : PStr) : NsTree → List PStr
  | .node _ _ _ _ cs => p :: pathsBelow p cs

/-- Paths of the descendants obtained from the children list `cs` of a node
whose own path is `p`. -/
def pathsBelow (p : PStr) : List NsTree → List PStr
  | [] => []
  | c :: rest => allPathsFrom (p ++ c.name) c ++ pathsBelow p rest

end

/-- Embedding of a Python dict assignment `m[k] = v` on an insertion-ordered
mapping: overwrite in place when the key exists, append otherwise. -/
def setKey {α : Type} (m : List (PStr × α)) (k : PStr) (v : α) : List (PStr × α) :=
  if m.any (fun kv => kv.1 == k) then
    m.map (fun kv => if kv.1 == k then (k, v) else kv)
  else m ++ [(k, v)]

/-- Key membership in an insertion-ordered mapping. -/
def hasKey {α : Type} (m : List (PStr × α)) (k : PStr) : Bool :=
  m.any (fun kv => kv.1 == k)

/-- Shared auditor state: the `AuditStats` counters, the three `AuditData`
maps, and the observation logs used to state the claims (each dequeue/visit,
each `path_queue.put`, and each write to the `namespaces` map, in order). -/
structure AuditSt where
  processed : Nat := 0
  errors : Nat := 0
  namespaces : List (PStr × NsInfo) := []
  auth_methods : List (PStr × Mounts) := []
  secret_engines : List (PStr × Mounts) := []
  visitLog : List PStr := []
  enqLog : List PStr := []
  nsInsertLog : List PStr := []
deriving DecidableEq, Repr

def emptySt : AuditSt := {}

/-- The stored map key for a visited path: `namespace_path.rstrip("/") if
namespace_path != "" else ""` from `_traverse_namespace`. -/
def storeKey (p : PStr) : PStr := if p = [] then [] else rstripSlash p

/-- Embedding of the child loop of `_traverse_namespace`: for each
`(name, info)` in the `key_info` mapping, build `child_path_full`, put it on
the queue, and set `namespaces[child_path_full.rstrip("/")] = info`.
Returns the updated state and the queue items added, in order. -/
def enqChildren (p : PStr) : List NsTree → AuditSt → AuditSt × List (PStr × NsTree)
  | [], s => (s, [])
  | c :: rest, s =>
      let cp := p ++ c.name
      let s1 := { s with
        enqLog := s.enqLog ++ [cp],
        namespaces := setKey s.namespaces (rstripSlash cp) c.info,
        nsInsertLog := s.nsInsertLog ++ [rstripSlash cp] }
      let out := enqChildren p rest s1
      (out.1, (cp, c) :: out.2)

/-- Embedding of `_traverse_namespace(namespace_path, path_queue)`.
The processed counter is incremented first; then the two mount listings are
attempted (failure of either reaches the outer handlers: error counter
incremented, nothing stored, no child listing attempted); on success both
maps are stored under `storeKey`, and the child listing is attempted:
`InvalidPath` is ignored, any other failure increments the error counter,
and a successful listing enqueues every child. -/
def visitNode (p : PStr) (t : NsTree) (s : AuditSt) : AuditSt × List (PStr × NsTree) :=
  let s1 := { s with processed := s.processed + 1, visitLog := s.visitLog ++ [p] }
  match t.mounts with
  | none => ({ s1 with errors := s1.errors + 1 }, [])
  | some (am, se) =>
    let s2 := { s1 with
      auth_methods := setKey s1.auth_methods (storeKey p) am,
      secret_engines := setKey s1.secret_engines (storeKey p) se }
    match t.cstat with
    | .invalidPath => (s2, [])
    | .errored => ({ s2 with errors := s2.errors + 1 }, [])
    | .ok => enqChildren p t.children s2

/-- Rate-limiting configuration of the auditor. -/
structure RateCfg where
  batchSize : Nat
  sleepSeconds : Nat
  disable : Bool
deriving DecidableEq, Repr

/-- Embedding of the sleep decision taken by `_worker` before each visit:
`if not rate_limit_disable and processed_count > 0 and
processed_count % batch_size == 0: sleep(sleep_seconds)`.
Returns the seconds slept. -/
def sleepFor (cfg : RateCfg) (k : Nat) : Nat :=
  if ¬cfg.disable ∧ 0 < k ∧ k % cfg.batchSize = 0 then cfg.sleepSeconds else 0

/-- Total number of tree nodes held in the queue. -/
def sizeQ (q : List (PStr × NsTree)) : Nat :=
  (q.map (fun it => it.2.size)).sum

/-- The worker loop consuming the FIFO queue, with explicit fuel: take the
front item, apply the rate-limit check against the current processed count,
visit the node, append the discovered children to the queue, and repeat
until the queue is empty (`queue.join` returning).  `none` means the fuel
ran out with work still pending; the termination theorem shows the fuel
`NsTree.size` always suffices. -/
def runQueue (cfg : RateCfg) : Nat → List (PStr × NsTree) → AuditSt → Nat →
    Option (AuditSt × Nat)
  | _, [], s, slp => some (s, slp)
  | 0, _ :: _, _, _ => none
  | fuel + 1, (p, t) :: rest, s, slp =>
      let slp1 := slp + sleepFor cfg s.processed
      let out := visitNode p t s
      runQueue cfg fuel (rest ++ out.2) out.1 slp1

/-- The health endpoint response as `validate_connection` distinguishes it:
a JSON mapping (field list), a non-mapping value, or an exception raised by
the call itself. -/
inductive HealthResp where
  | dict (fields : List (String × String))
  | notDict
  | raises
deriving DecidableEq, Repr

/-- Environment of `VaultClient.validate_connection`: the health response
and the results of the three follow-up checks. -/
structure ConnEnv where
  health : HealthResp
  sealedFlag : Bool
  authenticated : Bool
  initialized : Bool
deriving DecidableEq, Repr

/-- First value bound to a key in an association list (Python dict lookup). -/
def lookupStr (m : List (String × String)) (k : String) : Option String :=
  match m with
  | [] => none
  | kv :: rest => if kv.1 == k then some kv.2 else lookupStr rest k

/-- Embedding of `VaultClient.validate_connection`: check that the health
response is a mapping, that the cluster is not sealed, that the token
authenticates, and that the cluster is initialised, in that order; any
failure is a `VaultConnectionError`.  On success return
`health_status.get("cluster_name", "unknown")`. -/
def validate_connection (e : ConnEnv) : Except String String :=
  match e.health with
  | .raises => .error "Connection error"
  | .notDict => .error "Invalid health status response"
  | .dict fields =>
    if e.sealedFlag then .error "Vault cluster is sealed"
    else if !e.authenticated then .error "Vault client is not authenticated"
    else if !e.initialized then .error "Vault cluster is not initialized"
    else .ok ((lookupStr fields "cluster_name").getD "unknown")

/-- One output filename of `_write_reports`:
`f"{output_dir}/{cluster_name}-{suffix}"`. -/
def mkReportFile (dir cluster suffix : String) : String :=
  dir ++ "/" ++ cluster ++ "-" ++ suffix

/-- Embedding of `_write_reports`: the three JSON files are always written;
each CSV summary is written only when it has rows (`_write_namespace_summary`
and `_write_item_summary` return early on empty data). -/
def reportFiles (dir cluster date : String) (st : AuditSt) : List String :=
  [mkReportFile dir cluster ("namespaces-" ++ date ++ ".json"),
   mkReportFile dir cluster ("auth-methods-" ++ date ++ ".json"),
   mkReportFile dir cluster ("secrets-engines-" ++ date ++ ".json")]
  ++ (if st.namespaces.isEmpty then [] else
      [mkReportFile dir cluster ("summary-namespaces-" ++ date ++ ".csv")])
  ++ (if st.auth_methods.isEmpty then [] else
      [mkReportFile dir cluster ("summary-auth-methods-" ++ date ++ ".csv")])
  ++ (if st.secret_engines.isEmpty then [] else
      [mkReportFile dir cluster ("summary-secrets-engines-" ++ date ++ ".csv")])

/-- Observable outcome of `audit_cluster`: the connection error if the
initial validation failed, the final shared state, the total seconds slept
by the rate-limit policy, the number of shutdown sentinels put on the queue,
the number of workers joined, and the report files written. -/
structure AuditOutcome where
  connError : Option String
  st : AuditSt
  sleepTotal : Nat
  sentinels : Nat
  joined : Nat
  files : List String
deriving Repr

/-- Embedding of `NamespaceAuditor.audit_cluster`: validate the connection
(a failure is caught: nothing is visited, no file is written); otherwise
seed the queue with the start path (`""` when the argument is `"/"`), run
the worker pool to completion of `queue.join`, put one `None` sentinel per
worker, join the workers, and write the reports. -/
def audit_cluster (env : ConnEnv) (t : NsTree) (cfg : RateCfg) (workers : Nat)
    (startPath : PStr) (outputDir date : String) : AuditOutcome :=
  match validate_connection env with
  | .error m =>
      { connError := some m, st := emptySt, sleepTotal := 0,
        sentinels := 0, joined := 0, files := [] }
  | .ok cluster =>
    let initial := if startPath = ['/'] then [] else startPath
    let s0 : AuditSt := { emptySt with enqLog := [initial] }
    match runQueue cfg t.size [(initial, t)] s0 0 with
    | none =>
        { connError := none, st := emptySt, sleepTotal := 0,
          sentinels := 0, joined := 0, files := [] }
    | some (st, slp) =>
        { connError := none, st := st, sleepTotal := slp,
          sentinels := workers, joined := workers,
          files := reportFiles outputDir cluster date st }

/-- Concatenation of the proper-descendant paths contributed by each queue
item: the paths the traversal may still enqueue from the pending items. -/
def queuePathsBelow : List (PStr × NsTree) → List PStr
  | [] => []
  | it :: rest => pathsBelow it.1 it.2.children ++ queuePathsBelow rest

/-- Seconds slept by the rate-limit policy over the first `n` visits of a
run (the processed counter takes the values `0, 1, ..., n-1` at the checks). -/
def batchSleeps (cfg : RateCfg) : Nat → Nat
  | 0 => 0
  | n + 1 => batchSleeps cfg n + sleepFor cfg n

/-- A path of the shape the traversal enqueues for children: a single
trailing slash preceded by a slash-free nonempty segment, so that
`rstrip("/")` removes exactly that slash. -/
def childShaped (x : PStr) : Prop := rstripSlash x ++ ['/'] = x

/- ### The response decoder of `VaultClient.get` -/

def quoteC : Char := Char.ofNat 34
def bslashC : Char := Char.ofNat 92
def lbraceC : Char := Char.ofNat 123
def rbraceC : Char := Char.ofNat 125
def nlC : Char := Char.ofNat 10
def crC : Char := Char.ofNat 13
def tabC : Char := Char.ofNat 9
def spC : Char := Char.ofNat 32

def isWsC (c : Char) : Bool := c = spC ∨ c = nlC ∨ c = tabC ∨ c = crC

def isDigitC (c : Char) : Bool := 48 ≤ c.toNat ∧ c.toNat ≤ 57

def skipWs (s : PStr) : PStr := s.dropWhile isWsC

/-- JSON values as this system manipulates them (numbers restricted to
integers; the activity payloads carry only integral counts). -/
inductive Json where
  | null
  | bool (b : Bool)
  | num (n : Int)
  | str (s : PStr)
  | arr (xs : List Json)
  | obj (kvs : List (PStr × Json))

def digitChar (d : Nat) : Char := Char.ofNat (48 + d)

/-- Decimal digits of a natural number, most significant first (the fuel
argument only bounds the recursion; `n` itself is always enough). -/
def natDigitsAux : Nat → Nat → PStr
  | 0, _ => []
  | fuel + 1, n =>
    if n < 10 then [digitChar n]
    else natDigitsAux fuel (n / 10) ++ [digitChar (n % 10)]

def natDigits (n : Nat) : PStr := natDigitsAux (n + 1) n

def intSer (n : Int) : PStr :=
  if n < 0 then '-' :: natDigits n.natAbs else natDigits n.natAbs

/-- String escaping as the serialiser emits it: quote and backslash get a
backslash escape, every other character is emitted literally. -/
def escChar (c : Char) : PStr :=
  if c = quoteC ∨ c = bslashC then [bslashC, c] else [c]

def escStr (s : PStr) : PStr := s.foldr (fun c acc => escChar c ++ acc) []

mutual

/-- A JSON serialisation of a value (compact, the canonical choice for the
`serialise` of the decoder laws). -/
def Json.ser : Json → PStr
  | .null => 'n' :: 'u' :: 'l' :: 'l' :: []
  | .bool true => 't' :: 'r' :: 'u' :: 'e' :: []
  | .bool false => 'f' :: 'a' :: 'l' :: 's' :: 'e' :: []
  | .num n => intSer n
  | .str s => quoteC :: (escStr s ++ [quoteC])
  | .arr xs => '[' :: (serElems xs ++ [']'])
  | .obj kvs => lbraceC :: (serMembers kvs ++ [rbraceC])

def serElems : List Json → PStr
  | [] => []
  | [x] => Json.ser x
  | x :: y :: rest => Json.ser x ++ ',' :: serElems (y :: rest)

def serMembers : List (PStr × Json) → PStr
  | [] => []
  | [kv] => quoteC :: (escStr kv.1 ++ quoteC :: ':' :: Json.ser kv.2)
  | kv :: kv2 :: rest =>
      (quoteC :: (escStr kv.1 ++ quoteC :: ':' :: Json.ser kv.2)) ++
        ',' :: serMembers (kv2 :: rest)

end

mutual

/-- Fuel consumed by the parser on a serialised value. -/
def Json.jsize : Json → Nat
  | .null => 1
  | .bool _ => 1
  | .num _ => 1
  | .str _ => 1
  | .arr xs => 1 + jsizeElems xs
  | .obj kvs => 1 + jsizeMembers kvs

def jsizeElems : List Json → Nat
  | [] => 0
  | x :: rest => 1 + Json.jsize x + jsizeElems rest

def jsizeMembers : List (PStr × Json) → Nat
  | [] => 0
  | kv :: rest => 1 + Json.jsize kv.2 + jsizeMembers rest

end

mutual

/-- Well-formed value: the strings (and object keys) contain no control
characters, so that the serialisation is line-free and agrees with what a
JSON emitter would produce for them. -/
def Json.wfJ : Json → Bool
  | .null => true
  | .bool _ => true
  | .num _ => true
  | .str s => s.all (fun c => 32 ≤ c.toNat)
  | .arr xs => wfElems xs
  | .obj kvs => wfMembers kvs

def wfElems : List Json → Bool
  | [] => true
  | x :: rest => Json.wfJ x && wfElems rest

def wfMembers : List (PStr × Json) → Bool
  | [] => true
  | kv :: rest => kv.1.all (fun c => 32 ≤ c.toNat) && Json.wfJ kv.2 && wfMembers rest

end

/-- Body of a JSON string literal after the opening quote: read characters
up to the closing quote; a backslash escapes a quote or a backslash (the
escapes the serialiser produces). -/
def parseStringBody : PStr → Option (PStr × PStr)
  | [] => none
  | c :: rest =>
    if c = quoteC then some ([], rest)
    else if c = bslashC then
      match rest with
      | [] => none
      | d :: rest2 =>
        if d = quoteC ∨ d = bslashC then
          match parseStringBody rest2 with
          | some (str, r) => some (d :: str, r)
          | none => none
        else none
    else
      match parseStringBody rest with
      | some (str, r) => some (c :: str, r)
      | none => none

def digitsToNat (ds : PStr) : Nat :=
  ds.foldl (fun acc c => acc * 10 + (c.toNat - 48)) 0

/-- Integer literal: an optional minus sign followed by a nonempty digit
run, consumed greedily. -/
def parseNum (s : PStr) : Option (Json × PStr) :=
  match s with
  | [] => none
  | c :: rest =>
    if c = '-' then
      let dig := rest.takeWhile isDigitC
      let r := rest.dropWhile isDigitC
      if dig.isEmpty then none
      else some (.num (-(Int.ofNat (digitsToNat dig))), r)
    else
      let dig := s.takeWhile isDigitC
      let r := s.dropWhile isDigitC
      if dig.isEmpty then none
      else some (.num (Int.ofNat (digitsToNat dig)), r)

mutual

/-- Recursive-descent JSON value reader (one value, returning the unread
remainder), the embedding of the scanner behind `json.loads`. -/
def parseVal : Nat → PStr → Option (Json × PStr)
  | 0, _ => none
  | fuel + 1, s =>
    match s with
    | [] => none
    | c :: rest =>
      if c = quoteC then
        match parseStringBody rest with
        | some (str, r) => some (.str str, r)
        | none => none
      else if c = '[' then
        let r1 := skipWs rest
        match r1 with
        | [] => none
        | d :: r2 =>
          if d = ']' then some (.arr [], r2)
          else
            match parseElems fuel r1 with
            | some (vs, r3) => some (.arr vs, r3)
            | none => none
      else if c = lbraceC then
        let r1 := skipWs rest
        match r1 with
        | [] => none
        | d :: r2 =>
          if d = rbraceC then some (.obj [], r2)
          else
            match parseMembers fuel r1 with
            | some (kvs, r3) => some (.obj kvs, r3)
            | none => none
      else if c = 't' then
        match rest with
        | 'r' :: 'u' :: 'e' :: r => some (.bool true, r)
        | _ => none
      else if c = 'f' then
        match rest with
        | 'a' :: 'l' :: 's' :: 'e' :: r => some (.bool false, r)
        | _ => none
      else if c = 'n' then
        match rest with
        | 'u' :: 'l' :: 'l' :: r => some (.null, r)
        | _ => none
      else if c = '-' ∨ isDigitC c then parseNum (c :: rest)
      else none

/-- One or more array elements followed by the closing bracket. -/
def parseElems : Nat → PStr → Option (List Json × PStr)
  | 0, _ => none
  | fuel + 1, s =>
    match parseVal fuel (skipWs s) with
    | none => none
    | some (v, r) =>
      match skipWs r with
      | [] => none
      | c :: r2 =>
        if c = ',' then
          match parseElems fuel r2 with
          | some (vs, r3) => some (v :: vs, r3)
          | none => none
        else if c = ']' then some ([v], r2)
        else none

/-- One or more object members followed by the closing brace. -/
def parseMembers : Nat → PStr → Option (List (PStr × Json) × PStr)
  | 0, _ => none
  | fuel + 1, s =>
    match skipWs s with
    | [] => none
    | c :: rest =>
      if c = quoteC then
        match parseStringBody rest with
        | none => none
        | some (k, r1) =>
          match skipWs r1 with
          | [] => none
          | d :: r2 =>
            if d = ':' then
              match parseVal fuel (skipWs r2) with
              | none => none
              | some (v, r3) =>
                match skipWs r3 with
                | [] => none
                | e :: r4 =>
                  if e = ',' then
                    match parseMembers fuel r4 with
                    | some (kvs, r5) => some ((k, v) :: kvs, r5)
                    | none => none
                  else if e = rbraceC then some ([(k, v)], r4)
                  else none
            else none
      else none

end

/-- The `JSONDecodeError` kinds `VaultClient.get` distinguishes: an
"Extra data" error (a full value parsed but non-blank input remains) and
every other decode failure. -/
inductive JErr where
  | extraData
  | expectingValue
deriving DecidableEq, Repr

/-- Embedding of `json.loads` (as `response.json()` calls it): skip leading
whitespace, read one value, and require only whitespace to remain;
otherwise fail with "Extra data". -/
def jsonLoads (s : PStr) : Except JErr Json :=
  match parseVal (s.length + 1) (skipWs s) with
  | none => .error .expectingValue
  | some (v, r) => if skipWs r = [] then .ok v else .error .extraData

/-- Python `str.strip()`: drop whitespace at both ends. -/
def stripWs (s : PStr) : PStr :=
  ((s.dropWhile isWsC).reverse.dropWhile isWsC).reverse

/-- `json.loads` over every line; `none` when any line fails (that
exception propagates out of the NDJSON fallback). -/
def loadsLines : List PStr → Option (List Json)
  | [] => some []
  | l :: rest =>
    match jsonLoads l, loadsLines rest with
    | .ok v, some vs => some (v :: vs)
    | _, _ => none

/-- Embedding of the response decoding in `VaultClient.get`: try a single
JSON document first; on an "Extra data" failure, strip the payload, split it
on newlines, drop blank lines and parse each line as one JSON value (a list
result); any other parse failure is a `VaultDataError`, and a failure inside
the NDJSON fallback is an error as well. -/
def decodeBody (s : PStr) : Except String Json :=
  match jsonLoads s with
  | .ok v => .ok v
  | .error .extraData =>
    let lines := ((stripWs s).splitOn nlC).filter (fun l => !l.isEmpty)
    match loadsLines lines with
    | some vs => .ok (.arr vs)
    | none => .error "Unexpected error on GET"
  | .error .expectingValue => .error "Failed to parse JSON"

/-- `NDJSON-join`: one serialised value per line. -/
def ndjsonJoin (bodies : List PStr) : PStr := List.intercalate [nlC] bodies

/-- The remainder after a parsed value must not begin with a digit (else a
number would run into it). -/
def noDigitHeadB : PStr → Bool
  | [] => true
  | c :: _ => !isDigitC c

/- ### Activity and entity exporters -/

/-- Generic Python dict lookup on an insertion-ordered association list. -/
def lookupKV {κ α : Type} [BEq κ] : List (κ × α) → κ → Option α
  | [], _ => none
  | kv :: rest, k => if kv.1 == k then some kv.2 else lookupKV rest k

/-- Generic dict assignment `m[k] = v`. -/
def setKV {κ α : Type} [BEq κ] (m : List (κ × α)) (k : κ) (v : α) : List (κ × α) :=
  if m.any (fun kv => kv.1 == k) then
    m.map (fun kv => if kv.1 == k then (k, v) else kv)
  else m ++ [(k, v)]

/-- One element of a namespace entry's `mounts` list, with possibly missing
fields as `.get` defaults them. -/
structure ActivityMount where
  mount_path : Option String
  counts : List (String × Nat)
deriving DecidableEq, Repr

/-- One element of the activity response's `by_namespace` list. -/
structure ActivityNs where
  namespace_id : Option String
  namespace_path : Option String
  counts : List (String × Nat)
  mounts : Option (List ActivityMount)
deriving DecidableEq, Repr

/-- Per-namespace output row of the activity export. -/
structure NsRow where
  namespace_id : String
  namespace_path : String
  mounts : Nat
  clients : Nat
  entity_clients : Nat
  non_entity_clients : Nat
deriving DecidableEq, Repr

/-- Per-mount output row of the activity export. -/
structure MountRow where
  namespace_id : String
  namespace_path : String
  mount_path : String
  clients : Nat
  entity_clients : Nat
  non_entity_clients : Nat
deriving DecidableEq, Repr

def countOf (m : List (String × Nat)) (k : String) : Nat :=
  (lookupKV m k).getD 0

/-- Embedding of one iteration of the `by_namespace` loop in
`process_activity_data`: defaults for missing fields, the root-path rewrite
(`"root/"` when `namespace_id == "root"` and `namespace_path == ""`), one
namespace row, and one mount row per element of `mounts`. -/
def processNs (ns : ActivityNs) : NsRow × List MountRow :=
  let nsId := ns.namespace_id.getD ""
  let rawPath := ns.namespace_path.getD ""
  let nsPath := if nsId = "root" ∧ rawPath = "" then "root/" else rawPath
  let mountsList := ns.mounts.getD []
  ({ namespace_id := nsId, namespace_path := nsPath,
     mounts := mountsList.length,
     clients := countOf ns.counts "clients",
     entity_clients := countOf ns.counts "entity_clients",
     non_entity_clients := countOf ns.counts "non_entity_clients" },
   mountsList.map (fun m =>
     { namespace_id := nsId, namespace_path := nsPath,
       mount_path := m.mount_path.getD "",
       clients := countOf m.counts "clients",
       entity_clients := countOf m.counts "entity_clients",
       non_entity_clients := countOf m.counts "non_entity_clients" }))

/-- The two row lists built by `process_activity_data`, in input order. -/
def activityRows : List ActivityNs → List NsRow × List MountRow
  | [] => ([], [])
  | ns :: rest =>
    let hd := processNs ns
    let tl := activityRows rest
    (hd.1 :: tl.1, hd.2 ++ tl.2)

/-- File-system environment for the report writers: the file paths whose
write raises a `FileProcessingError`. -/
structure FsEnv where
  failing : List String
deriving DecidableEq, Repr

/-- What a sequence of writes leaves behind: the files written before the
first failure (they stay on disk) and whether a write raised. -/
structure WriteTrace where
  written : List String
  raised : Bool
deriving DecidableEq, Repr

/-- Perform writes in order, stopping at the first failing path (the raised
`FileProcessingError` aborts the remaining writes of the `try` block). -/
def tryWrites (env : FsEnv) : List String → WriteTrace
  | [] => { written := [], raised := false }
  | p :: rest =>
    if env.failing.contains p then { written := [], raised := true }
    else
      let t := tryWrites env rest
      { written := p :: t.written, raised := t.raised }

/-- Observable outcome of one exporter subcommand run. -/
structure ExportRun where
  fatalError : Option String
  written : List String
  nsRows : List NsRow
  mountRows : List MountRow
deriving DecidableEq, Repr

/-- The three activity report paths, in the order `process_activity_data`
writes them. -/
def activityFiles (dir cluster date : String) : List String :=
  [dir ++ "/" ++ cluster ++ "-activity-" ++ date ++ ".json",
   dir ++ "/" ++ cluster ++ "-activity-namespaces-" ++ date ++ ".csv",
   dir ++ "/" ++ cluster ++ "-activity-mounts-" ++ date ++ ".csv"]

/-- Embedding of `process_activity_data`: build the rows, then write the
JSON and the two CSVs inside a `try` whose `except FileProcessingError`
handler only logs, so a write failure is swallowed and the rows are still
returned. -/
def process_activity_data (env : FsEnv) (byNs : List ActivityNs)
    (cluster dir date : String) : ExportRun :=
  let rows := activityRows byNs
  let t := tryWrites env (activityFiles dir cluster date)
  { fatalError := none, written := t.written, nsRows := rows.1, mountRows := rows.2 }

/-- Embedding of `run_activity_export`: a fetch failure propagates out of
`get_activity_data` (which re-raises) before anything is written; otherwise
`process_activity_data` runs. -/
def run_activity_export (env : FsEnv) (fetch : Except String (List ActivityNs))
    (cluster dir date : String) : ExportRun :=
  match fetch with
  | .error e => { fatalError := some e, written := [], nsRows := [], mountRows := [] }
  | .ok byNs => process_activity_data env byNs cluster dir date

/-- An entity-export record as a JSON object row. -/
abbrev ERec := List (String × String)

/-- Embedding of the root-path rewrite of `process_entity_export_data`
restricted to one row (the pandas mask sets `namespace_path` to `"root/"`
exactly on the rows with `namespace_id == "root"` and
`namespace_path == ""`; rows without those fields never match). -/
def entityRewrite (r : ERec) : ERec :=
  if lookupKV r "namespace_id" = some "root" ∧ lookupKV r "namespace_path" = some "" then
    setKV r "namespace_path" "root/"
  else r

/-- The two entity report paths, in write order. -/
def entityFiles (dir cluster date : String) : List String :=
  [dir ++ "/" ++ cluster ++ "-entity-export-" ++ date ++ ".json",
   dir ++ "/" ++ cluster ++ "-entity-export-" ++ date ++ ".csv"]

/-- Observable outcome of `process_entity_export_data`: `none` rows when the
function returns early (no data, or missing `client_type` column), otherwise
the rewritten rows; the write trace as for the activity exporter
(`FileProcessingError` is caught and the function returns `None`). -/
structure EntityRun where
  written : List String
  rows : Option (List ERec)
deriving DecidableEq, Repr

/-- Embedding of `process_entity_export_data`: empty data or a missing
`client_type` column returns early with nothing written; otherwise
`entity_type` is copied from `client_type`, the root-path rewrite is
applied, and the JSON and CSV are written inside a `try` whose handler
swallows the failure. -/
def process_entity_export_data (env : FsEnv) (data : List ERec)
    (cluster dir date : String) : EntityRun :=
  match data with
  | [] => { written := [], rows := none }
  | r0 :: rest =>
    if (r0 :: rest).all (fun r => !(r.any (fun kv => kv.1 == "client_type"))) then
      { written := [], rows := none }
    else
      let rows := (r0 :: rest).map (fun r =>
        entityRewrite (setKV r "entity_type" ((lookupKV r "client_type").getD "")))
      let t := tryWrites env (entityFiles dir cluster date)
      { written := t.written, rows := some rows }

/- ### `write_csv` of `file_utils.py` -/

/-- A row passed to `write_csv`: one Python dict, in insertion order. -/
abbrev CsvRow := List (String × String)

def rowKeys (r : CsvRow) : List String := r.map (fun kv => kv.1)

/-- `csv.DictWriter` rendering of one row: a key outside `fieldnames`
raises `ValueError` (the default `extrasaction="raise"`); a missing key
becomes the default `restval` `""`. -/
def renderRow (fieldnames : List String) (r : CsvRow) : Except String (List String) :=
  if r.any (fun kv => !(fieldnames.contains kv.1)) then
    .error "dict contains fields not in fieldnames"
  else .ok (fieldnames.map (fun k => (lookupKV r k).getD ""))

def renderRows (fieldnames : List String) : List CsvRow → Except String (List (List String))
  | [] => .ok []
  | r :: rest =>
    match renderRow fieldnames r, renderRows fieldnames rest with
    | .ok line, .ok lines => .ok (line :: lines)
    | .error e, _ => .error e
    | _, .error e => .error e

/-- The file `write_csv` leaves behind on success: the parent directory was
created (`os.makedirs(..., exist_ok=True)`) and the content is a list of
cell rows (CSV quoting abstracted away). -/
structure CsvFile where
  madeDir : Bool
  lines : List (List String)
deriving DecidableEq, Repr

/-- Embedding of `file_utils.write_csv`: create the parent directory; with
no rows and no headers the opened file is left empty; otherwise the
fieldnames are the explicit headers or the first row's keys, and the header
line is followed by one rendered line per row.  A `ValueError` from
`DictWriter` is not caught and escapes (`.error`). -/
def write_csv (rows : List CsvRow) (headers : Option (List String)) :
    Except String CsvFile :=
  match rows, headers with
  | [], none => .ok { madeDir := true, lines := [] }
  | _, _ =>
    let fieldnames :=
      match headers, rows with
      | some hs, _ => hs
      | none, r :: _ => rowKeys r
      | none, [] => []
    match renderRows fieldnames rows with
    | .error e => .error e
    | .ok body => .ok { madeDir := true, lines := fieldnames :: body }

/- ### Concrete fixtures for witnesses and counterexamples -/

def info0 : NsInfo := { id := ['i'], meta := [] }

/-- A leaf namespace: mounts list fine, child listing 404s. -/
def leafOk (nm : PStr) : NsTree := .node nm info0 (some ([], [])) .invalidPath []

def rootLeaf : NsTree := leafOk []

/-- Root with one child `a/`. -/
def chain2 : NsTree := .node [] info0 (some ([], [])) .ok [leafOk ['a', '/']]

/-- A namespace whose mount listings are forbidden but which has a listable
child `g/`. -/
def secretSub : NsTree :=
  .node ['s', 'e', 'c', 'r', 'e', 't', '/'] info0 none .ok [leafOk ['g', '/']]

/-- Root with children `ok/` and `secret/` (the latter forbidden). -/
def treeForbidden : NsTree :=
  .node [] info0 (some ([], [])) .ok [leafOk ['o', 'k', '/'], secretSub]

def envOK : ConnEnv :=
  { health := .dict [("cluster_name", "prod")], sealedFlag := false,
    authenticated := true, initialized := true }

def envNoName : ConnEnv :=
  { health := .dict [("version", "1.17.0")], sealedFlag := false,
    authenticated := true, initialized := true }

def envSealed : ConnEnv :=
  { health := .dict [], sealedFlag := true, authenticated := true, initialized := true }

def cfgFast : RateCfg := { batchSize := 100, sleepSeconds := 3, disable := true }

def cfgB2 : RateCfg := { batchSize := 2, sleepSeconds := 3, disable := false }

/-- An activity entry as the server reports the root namespace. -/
def rootEntry : ActivityNs :=
  { namespace_id := some "root", namespace_path := some "", counts := [], mounts := some [] }

/-- An activity entry whose raw path is literally `"root/"` under another id. -/
def oddEntry : ActivityNs :=
  { namespace_id := some "x", namespace_path := some "root/", counts := [], mounts := some [] }

/-- An entity record with the root condition. -/
def rootERec : ERec := [("namespace_id", "root"), ("namespace_path", "")]

/- ### Lemmas: traversal bookkeeping -/

theorem size_pos (t : NsTree) : 1 ≤ t.size := by
  cases t with
  | node n i m c cs => simp [NsTree.size]

theorem enqChildren_snd (p : PStr) (cs : List NsTree) (s : AuditSt) :
    (enqChildren p cs s).2 = cs.map (fun c => (p ++ c.name, c)) := by
  induction cs generalizing s with
  | nil => rfl
  | cons c rest ih => simp [enqChildren, ih]

theorem enqChildren_fst (p : PStr) (cs : List NsTree) (s : AuditSt) :
    (enqChildren p cs s).1.processed = s.processed ∧
    (enqChildren p cs s).1.errors = s.errors ∧
    (enqChildren p cs s).1.visitLog = s.visitLog ∧
    (enqChildren p cs s).1.auth_methods = s.auth_methods ∧
    (enqChildren p cs s).1.secret_engines = s.secret_engines ∧
    (enqChildren p cs s).1.enqLog = s.enqLog ++ cs.map (fun c => p ++ c.name) ∧
    (enqChildren p cs s).1.nsInsertLog =
      s.nsInsertLog ++ cs.map (fun c => rstripSlash (p ++ c.name)) := by
  induction cs generalizing s with
  | nil => simp [enqChildren]
  | cons c rest ih =>
    simp only [enqChildren, List.map_cons]
    refine ⟨?_, ?_, ?_, ?_, ?_, ?_, ?_⟩ <;>
      simp [(ih _).1, (ih _).2.1, (ih _).2.2.1, (ih _).2.2.2.1,
        (ih _).2.2.2.2.1, (ih _).2.2.2.2.2.1, (ih _).2.2.2.2.2.2]

theorem visitNode_processed (p : PStr) (t : NsTree) (s : AuditSt) :
    (visitNode p t s).1.processed = s.processed + 1 := by
  cases t with
  | node n i m c cs =>
    cases m with
    | none => simp [visitNode, NsTree.mounts]
    | some ms =>
      cases c with
      | ok =>
        simp [visitNode, NsTree.mounts, NsTree.cstat, NsTree.children,
          (enqChildren_fst p cs _).1]
      | invalidPath => simp [visitNode, NsTree.mounts, NsTree.cstat]
      | errored => simp [visitNode, NsTree.mounts, NsTree.cstat]

theorem visitNode_visitLog (p : PStr) (t : NsTree) (s : AuditSt) :
    (visitNode p t s).1.visitLog = s.visitLog ++ [p] := by
  cases t with
  | node n i m c cs =>
    cases m with
    | none => simp [visitNode, NsTree.mounts]
    | some ms =>
      cases c with
      | ok =>
        simp [visitNode, NsTree.mounts, NsTree.cstat, NsTree.children,
          (enqChildren_fst p cs _).2.2.1]
      | invalidPath => simp [visitNode, NsTree.mounts, NsTree.cstat]
      | errored => simp [visitNode, NsTree.mounts, NsTree.cstat]

theorem visitNode_enqLog (p : PStr) (t : NsTree) (s : AuditSt) :
    (visitNode p t s).1.enqLog = s.enqLog ++ (visitNode p t s).2.map (fun it => it.1) := by
  cases t with
  | node n i m c cs =>
    cases m with
    | none => simp [visitNode, NsTree.mounts]
    | some ms =>
      cases c with
      | ok =>
        simp [visitNode, NsTree.mounts, NsTree.cstat, NsTree.children,
          (enqChildren_fst p cs _).2.2.2.2.2.1, enqChildren_snd]
      | invalidPath => simp [visitNode, NsTree.mounts, NsTree.cstat]
      | errored => simp [visitNode, NsTree.mounts, NsTree.cstat]

theorem visitNode_nsInsertLog (p : PStr) (t : NsTree) (s : AuditSt) :
    (visitNode p t s).1.nsInsertLog =
      s.nsInsertLog ++ (visitNode p t s).2.map (fun it => rstripSlash it.1) := by
  cases t with
  | node n i m c cs =>
    cases m with
    | none => simp [visitNode, NsTree.mounts]
    | some ms =>
      cases c with
      | ok =>
        simp [visitNode, NsTree.mounts, NsTree.cstat, NsTree.children,
          (enqChildren_fst p cs _).2.2.2.2.2.2, enqChildren_snd]
      | invalidPath => simp [visitNode, NsTree.mounts, NsTree.cstat]
      | errored => simp [visitNode, NsTree.mounts, NsTree.cstat]

theorem visitNode_kids (p : PStr) (t : NsTree) (s : AuditSt) :
    (visitNode p t s).2 = [] ∨
    (visitNode p t s).2 = t.children.map (fun c => (p ++ c.name, c)) := by
  cases t with
  | node n i m c cs =>
    cases m with
    | none => left; simp [visitNode, NsTree.mounts]
    | some ms =>
      cases c with
      | ok =>
        right
        simp [visitNode, NsTree.mounts, NsTree.cstat, NsTree.children, enqChildren_snd]
      | invalidPath => left; simp [visitNode, NsTree.mounts, NsTree.cstat]
      | errored => left; simp [visitNode, NsTree.mounts, NsTree.cstat]

theorem sizeQ_append (a b : List (PStr × NsTree)) : sizeQ (a ++ b) = sizeQ a + sizeQ b := by
  simp [sizeQ]

theorem sizeQ_kids (p : PStr) (cs : List NsTree) :
    sizeQ (cs.map (fun c => (p ++ c.name, c))) = sizeList cs := by
  induction cs with
  | nil => rfl
  | cons c rest ih => simp [sizeQ, sizeList] at ih ⊢; omega

theorem visitNode_kids_size (p : PStr) (t : NsTree) (s : AuditSt) :
    sizeQ (visitNode p t s).2 + 1 ≤ t.size := by
  rcases visitNode_kids p t s with h | h
  · rw [h]; have := size_pos t; simp [sizeQ]; omega
  · rw [h, sizeQ_kids]
    cases t with
    | node n i m c cs => simp [NsTree.size, NsTree.children]; omega

theorem runQueue_total (cfg : RateCfg) :
    ∀ fuel q s slp, sizeQ q ≤ fuel →
      ∃ out, runQueue cfg fuel q s slp = some out := by
  intro fuel
  induction fuel with
  | zero =>
    intro q s slp h
    cases q with
    | nil => exact ⟨(s, slp), rfl⟩
    | cons it rest =>
      exfalso
      have h1 := size_pos it.2
      have : sizeQ (it :: rest) = it.2.size + sizeQ rest := by
        cases it; simp [sizeQ]
      omega
  | succ fuel ih =>
    intro q s slp h
    cases q with
    | nil => exact ⟨(s, slp), rfl⟩
    | cons it rest =>
      cases it with
      | mk p t =>
        have hsz : sizeQ ((p, t) :: rest) = t.size + sizeQ rest := by simp [sizeQ]
        have hkid := visitNode_kids_size p t s
        have : sizeQ (rest ++ (visitNode p t s).2) ≤ fuel := by
          rw [sizeQ_append]; omega
        obtain ⟨out, hout⟩ := ih (rest ++ (visitNode p t s).2) (visitNode p t s).1
          (slp + sleepFor cfg s.processed) this
        exact ⟨out, by simpa [runQueue] using hout⟩

theorem runQueue_drained (cfg : RateCfg) :
    ∀ fuel q s slp s' slp',
      runQueue cfg fuel q s slp = some (s', slp') →
      s.enqLog = s.visitLog ++ q.map (fun it => it.1) →
      s'.enqLog = s'.visitLog := by
  intro fuel
  induction fuel with
  | zero =>
    intro q s slp s' slp' h hinv
    cases q with
    | nil =>
      simp only [runQueue, Option.some.injEq, Prod.mk.injEq] at h
      rw [← h.1]; simpa using hinv
    | cons it rest => exact absurd h (by simp [runQueue])
  | succ fuel ih =>
    intro q s slp s' slp' h hinv
    cases q with
    | nil =>
      simp only [runQueue, Option.some.injEq, Prod.mk.injEq] at h
      rw [← h.1]; simpa using hinv
    | cons it rest =>
      obtain ⟨p, t⟩ := it
      simp only [runQueue] at h
      refine ih _ _ _ _ _ h ?_
      rw [visitNode_enqLog, visitNode_visitLog, hinv]
      simp [List.append_assoc]

theorem audit_success (env : ConnEnv) (t : NsTree) (cfg : RateCfg) (W : Nat)
    (startPath : PStr) (dir date c : String)
    (h : validate_connection env = .ok c) :
    ∃ st slp,
      runQueue cfg t.size [((if startPath = ['/'] then [] else startPath), t)]
        { emptySt with enqLog := [if startPath = ['/'] then [] else startPath] } 0
        = some (st, slp) ∧
      audit_cluster env t cfg W startPath dir date =
        { connError := none, st := st, sleepTotal := slp, sentinels := W, joined := W,
          files := reportFiles dir c date st } := by
  obtain ⟨⟨st, slp⟩, hrun⟩ := runQueue_total cfg t.size
    [((if startPath = ['/'] then [] else startPath), t)]
    { emptySt with enqLog := [if startPath = ['/'] then [] else startPath] } 0
    (by simp [sizeQ])
  refine ⟨st, slp, hrun, ?_⟩
  simp only [audit_cluster, h, hrun]

/-- C1: for every finite namespace tree (depth at most `D`, fan-out at most
`F`) and every worker count `W ≥ 1`, `audit_cluster` terminates: the worker
pool drains the queue within `t.size` visits; when `queue.join` returns,
every path ever put on the queue has been taken and visited (the enqueue log
equals the visit log: queue empty and no visit in flight); then one shutdown
sentinel per worker is put on the queue and all `W` workers are joined. -/
theorem audit_terminates (env : ConnEnv) (t : NsTree) (cfg : RateCfg)
    (W D F : Nat) (startPath : PStr) (dir date c : String)
    (hW : 1 ≤ W) (hD : t.depth ≤ D) (hF : t.fanout ≤ F)
    (hconn : validate_connection env = .ok c) :
    ∃ st slp,
      runQueue cfg t.size [((if startPath = ['/'] then [] else startPath), t)]
        { emptySt with enqLog := [if startPath = ['/'] then [] else startPath] } 0
        = some (st, slp) ∧
      audit_cluster env t cfg W startPath dir date =
        { connError := none, st := st, sleepTotal := slp, sentinels := W, joined := W,
          files := reportFiles dir c date st } ∧
      st.enqLog = st.visitLog := by
  obtain ⟨st, slp, hrun, heq⟩ := audit_success env t cfg W startPath dir date c hconn
  exact ⟨st, slp, hrun, heq, runQueue_drained cfg t.size _ _ 0 st slp hrun (by simp [emptySt])⟩

/-- C1 witness: a one-node tree, one worker, depth bound 1, fan-out bound 0. -/
theorem audit_terminates_witness :
    ∃ st slp,
      runQueue cfgFast rootLeaf.size [(([] : PStr), rootLeaf)]
        { emptySt with enqLog := [([] : PStr)] } 0 = some (st, slp) ∧
      audit_cluster envOK rootLeaf cfgFast 1 [] "outputs" "20260101" =
        { connError := none, st := st, sleepTotal := slp, sentinels := 1, joined := 1,
          files := reportFiles "outputs" "prod" "20260101" st } ∧
      st.enqLog = st.visitLog := by
  have h := audit_terminates envOK rootLeaf cfgFast 1 1 0 [] "outputs" "20260101" "prod"
    (by decide) (by decide) (by decide) rfl
  simpa using h

theorem runQueue_acct (cfg : RateCfg) :
    ∀ fuel q s slp s' slp',
      runQueue cfg fuel q s slp = some (s', slp') →
      s.processed ≤ s'.processed ∧
      slp' + batchSleeps cfg s.processed = slp + batchSleeps cfg s'.processed := by
  intro fuel
  induction fuel with
  | zero =>
    intro q s slp s' slp' h
    cases q with
    | nil =>
      simp only [runQueue, Option.some.injEq, Prod.mk.injEq] at h
      rw [← h.1, ← h.2]; omega
    | cons it rest => exact absurd h (by simp [runQueue])
  | succ fuel ih =>
    intro q s slp s' slp' h
    cases q with
    | nil =>
      simp only [runQueue, Option.some.injEq, Prod.mk.injEq] at h
      rw [← h.1, ← h.2]; omega
    | cons it rest =>
      obtain ⟨p, t⟩ := it
      simp only [runQueue] at h
      obtain ⟨hle, hacct⟩ := ih _ _ _ _ _ h
      rw [visitNode_processed] at hle hacct
      have hstep : batchSleeps cfg (s.processed + 1) =
          batchSleeps cfg s.processed + sleepFor cfg s.processed := rfl
      constructor
      · omega
      · omega

theorem batchSleeps_closed (cfg : RateCfg) (hd : cfg.disable = false)
    (hB : 0 < cfg.batchSize) :
    ∀ n, batchSleeps cfg n = ((n - 1) / cfg.batchSize) * cfg.sleepSeconds := by
  intro n
  induction n with
  | zero => simp [batchSleeps]
  | succ m ih =>
    have hstep : batchSleeps cfg (m + 1) = batchSleeps cfg m + sleepFor cfg m := rfl
    rw [hstep, ih]
    cases m with
    | zero => simp [sleepFor]
    | succ k =>
      have hsd : (k + 1) / cfg.batchSize =
          k / cfg.batchSize + if cfg.batchSize ∣ (k + 1) then 1 else 0 :=
        Nat.succ_div k cfg.batchSize
      simp only [Nat.add_sub_cancel]
      by_cases hdvd : (k + 1) % cfg.batchSize = 0
      · have hdd : cfg.batchSize ∣ (k + 1) := Nat.dvd_of_mod_eq_zero hdvd
        rw [hsd, if_pos hdd]
        have hsleep : sleepFor cfg (k + 1) = cfg.sleepSeconds := by
          simp [sleepFor, hd, hdvd]
        rw [hsleep]; ring
      · have hdd : ¬ cfg.batchSize ∣ (k + 1) := by
          intro hc; exact hdvd (Nat.dvd_iff_mod_eq_zero.mp hc)
        rw [hsd, if_neg hdd]
        have hsleep : sleepFor cfg (k + 1) = 0 := by
          simp [sleepFor, hd, hdvd]
        rw [hsleep]; ring

/-- C4 (amended): with rate limiting enabled (batch size `B > 0`, sleep
`T`), a completed audit run that processed `N` namespaces slept a total of
`floor((N - 1) / B) · T` seconds: the worker evaluates
`processed_count % B == 0` *before* `_traverse_namespace` increments the
counter, so the counter values checked are `0, 1, ..., N-1`, not
`1, ..., N`. -/
theorem rate_limit_total_sleep (env : ConnEnv) (t : NsTree) (cfg : RateCfg)
    (W : Nat) (startPath : PStr) (dir date c : String)
    (hconn : validate_connection env = .ok c)
    (hd : cfg.disable = false) (hB : 0 < cfg.batchSize) :
    (audit_cluster env t cfg W startPath dir date).sleepTotal =
      (((audit_cluster env t cfg W startPath dir date).st.processed - 1) /
        cfg.batchSize) * cfg.sleepSeconds := by
  obtain ⟨st, slp, hrun, heq⟩ := audit_success env t cfg W startPath dir date c hconn
  obtain ⟨hle, hacct⟩ := runQueue_acct cfg t.size _ _ 0 st slp hrun
  have h0 : ({ emptySt with enqLog := [if startPath = ['/'] then [] else startPath] } :
      AuditSt).processed = 0 := rfl
  rw [h0] at hacct
  have hbs0 : batchSleeps cfg 0 = 0 := rfl
  rw [hbs0] at hacct
  have hslp : slp = batchSleeps cfg st.processed := by omega
  rw [heq]
  simp only []
  rw [hslp, batchSleeps_closed cfg hd hB]

/-- C4 counterexample: a run that processes `N = 2` namespaces with
`B = 2`, `T = 3` sleeps `0` seconds, while the claimed bound
`floor(N/B) · T` is `3`. -/
theorem rate_limit_counterexample :
    (audit_cluster envOK chain2 cfgB2 1 [] "outputs" "20260101").st.processed = 2 ∧
    (audit_cluster envOK chain2 cfgB2 1 [] "outputs" "20260101").sleepTotal = 0 ∧
    ((audit_cluster envOK chain2 cfgB2 1 [] "outputs" "20260101").st.processed /
      cfgB2.batchSize) * cfgB2.sleepSeconds = 3 ∧
    (0 : Nat) ≠ 3 :=
  ⟨rfl, rfl, rfl, by decide⟩

/-- C4 witness: the amended bound evaluated on a concrete run: 2 namespaces,
batch size 2, sleep 3 gives `floor((2-1)/2) · 3 = 0` seconds. -/
theorem rate_limit_total_sleep_witness :
    (audit_cluster envOK chain2 cfgB2 1 [] "outputs" "20260101").sleepTotal =
      (((audit_cluster envOK chain2 cfgB2 1 [] "outputs" "20260101").st.processed - 1) /
        cfgB2.batchSize) * cfgB2.sleepSeconds :=
  rate_limit_total_sleep envOK chain2 cfgB2 1 [] "outputs" "20260101" "prod" rfl rfl
    (by decide)

/-- C5: when the initial connection validation fails, `audit_cluster`
reports the connection error and visits nothing: no namespace is fetched,
the processed and error counters stay `0`, the result maps stay empty, and
no output file is written. -/
theorem conn_fail_visits_nothing (env : ConnEnv) (t : NsTree) (cfg : RateCfg)
    (W : Nat) (p : PStr) (dir date m : String)
    (h : validate_connection env = .error m) :
    (audit_cluster env t cfg W p dir date).connError = some m ∧
    (audit_cluster env t cfg W p dir date).st.processed = 0 ∧
    (audit_cluster env t cfg W p dir date).st.errors = 0 ∧
    (audit_cluster env t cfg W p dir date).st.visitLog = [] ∧
    (audit_cluster env t cfg W p dir date).st.namespaces = [] ∧
    (audit_cluster env t cfg W p dir date).st.auth_methods = [] ∧
    (audit_cluster env t cfg W p dir date).st.secret_engines = [] ∧
    (audit_cluster env t cfg W p dir date).files = [] := by
  simp [audit_cluster, h, emptySt]

/-- C5 witness: a sealed cluster fails validation; the audit of any tree
then touches nothing. -/
theorem conn_fail_visits_nothing_witness :
    validate_connection envSealed = .error "Vault cluster is sealed" ∧
    ((audit_cluster envSealed treeForbidden cfgFast 4 [] "outputs" "20260101").connError =
      some "Vault cluster is sealed" ∧
    (audit_cluster envSealed treeForbidden cfgFast 4 [] "outputs" "20260101").st.processed = 0 ∧
    (audit_cluster envSealed treeForbidden cfgFast 4 [] "outputs" "20260101").st.errors = 0 ∧
    (audit_cluster envSealed treeForbidden cfgFast 4 [] "outputs" "20260101").st.visitLog = [] ∧
    (audit_cluster envSealed treeForbidden cfgFast 4 [] "outputs" "20260101").st.namespaces = [] ∧
    (audit_cluster envSealed treeForbidden cfgFast 4 [] "outputs" "20260101").st.auth_methods = [] ∧
    (audit_cluster envSealed treeForbidden cfgFast 4 [] "outputs" "20260101").st.secret_engines = [] ∧
    (audit_cluster envSealed treeForbidden cfgFast 4 [] "outputs" "20260101").files = []) :=
  ⟨rfl, conn_fail_visits_nothing envSealed treeForbidden cfgFast 4 [] "outputs" "20260101"
    "Vault cluster is sealed" rfl⟩

theorem mem_reportFiles (dir c date : String) (st : AuditSt) (f : String)
    (hf : f ∈ reportFiles dir c date st) : ∃ sfx, f = dir ++ "/" ++ c ++ "-" ++ sfx := by
  unfold reportFiles at hf
  split at hf <;> split at hf <;> split at hf <;>
    simp only [mkReportFile, List.append_nil, List.nil_append, List.cons_append,
      List.append_assoc, List.mem_append, List.mem_cons, List.not_mem_nil,
      List.mem_singleton, or_false] at hf <;>
    aesop

/-- C10: when the health mapping lacks `cluster_name` (and the cluster is
unsealed, the token authenticates and the cluster is initialised),
`validate_connection` succeeds returning `"unknown"`, the audit completes,
and every output filename of the run is prefixed by
`<output_dir>/unknown-`. -/
theorem missing_cluster_name_unknown (fields : List (String × String))
    (t : NsTree) (cfg : RateCfg) (W : Nat) (startPath : PStr) (dir date : String)
    (hmiss : lookupStr fields "cluster_name" = none) :
    validate_connection ⟨.dict fields, false, true, true⟩ = .ok "unknown" ∧
    ∃ st slp,
      audit_cluster ⟨.dict fields, false, true, true⟩ t cfg W startPath dir date =
        { connError := none, st := st, sleepTotal := slp, sentinels := W, joined := W,
          files := reportFiles dir "unknown" date st } ∧
      ∀ f ∈ reportFiles dir "unknown" date st,
        ∃ sfx, f = dir ++ "/" ++ "unknown" ++ "-" ++ sfx := by
  have hval : validate_connection ⟨.dict fields, false, true, true⟩ = .ok "unknown" := by
    simp [validate_connection, hmiss]
  obtain ⟨st, slp, hrun, heq⟩ :=
    audit_success ⟨.dict fields, false, true, true⟩ t cfg W startPath dir date "unknown" hval
  exact ⟨hval, st, slp, heq, fun f hf => mem_reportFiles dir "unknown" date st f hf⟩

/-- C10 witness: a health mapping carrying only a version field. -/
theorem missing_cluster_name_unknown_witness :
    validate_connection ⟨.dict [("version", "1.17.0")], false, true, true⟩ = .ok "unknown" ∧
    ∃ st slp,
      audit_cluster ⟨.dict [("version", "1.17.0")], false, true, true⟩ rootLeaf cfgFast 4
          [] "outputs" "20260101" =
        { connError := none, st := st, sleepTotal := slp, sentinels := 4, joined := 4,
          files := reportFiles "outputs" "unknown" "20260101" st } ∧
      ∀ f ∈ reportFiles "outputs" "unknown" "20260101" st,
        ∃ sfx, f = "outputs" ++ "/" ++ "unknown" ++ "-" ++ sfx :=
  missing_cluster_name_unknown [("version", "1.17.0")] rootLeaf cfgFast 4 [] "outputs"
    "20260101" rfl

/-- C3 (amended): when listing auth methods or secret engines for a visited
path `p` fails with a forbidden or generic error, the audit increments the
error counter and stores no mounts for `p`, but it does NOT attempt the
child-namespace listing for `p` (the failure jumps to the outer exception
handlers of `_traverse_namespace`, past the child loop): no child of `p` is
discovered or enqueued.  The overall audit continues with the remaining
queue items. -/
theorem forbidden_skips_children (p : PStr) (t : NsTree) (s : AuditSt)
    (cfg : RateCfg) (fuel : Nat) (rest : List (PStr × NsTree)) (slp : Nat)
    (h : t.mounts = none) :
    visitNode p t s =
      ({ s with
          processed := s.processed + 1, visitLog := s.visitLog ++ [p],
          errors := s.errors + 1 }, []) ∧
    runQueue cfg (fuel + 1) ((p, t) :: rest) s slp =
      runQueue cfg fuel rest
        { s with
            processed := s.processed + 1, visitLog := s.visitLog ++ [p],
            errors := s.errors + 1 } (slp + sleepFor cfg s.processed) := by
  have hv : visitNode p t s =
      ({ s with
          processed := s.processed + 1, visitLog := s.visitLog ++ [p],
          errors := s.errors + 1 }, []) := by
    cases t with
    | node n i m c cs =>
      cases m with
      | none => simp [visitNode, NsTree.mounts]
      | some ms => simp [NsTree.mounts] at h
  refine ⟨hv, ?_⟩
  simp [runQueue, hv]

/-- C3 witness: a forbidden node with a listable child; the visit counts the
error, stores nothing, and hands back no children. -/
theorem forbidden_skips_children_witness :
    visitNode ['s', 'e', 'c', 'r', 'e', 't', '/'] secretSub emptySt =
      ({ emptySt with
          processed := emptySt.processed + 1,
          visitLog := emptySt.visitLog ++ [['s', 'e', 'c', 'r', 'e', 't', '/']],
          errors := emptySt.errors + 1 }, []) ∧
    runQueue cfgFast 1 [(['s', 'e', 'c', 'r', 'e', 't', '/'], secretSub)] emptySt 0 =
      runQueue cfgFast 0 []
        { emptySt with
            processed := emptySt.processed + 1,
            visitLog := emptySt.visitLog ++ [['s', 'e', 'c', 'r', 'e', 't', '/']],
            errors := emptySt.errors + 1 } (0 + sleepFor cfgFast emptySt.processed) :=
  forbidden_skips_children ['s', 'e', 'c', 'r', 'e', 't', '/'] secretSub emptySt
    cfgFast 0 [] 0 rfl

/-- C3 counterexample: root has children `ok/` and `secret/`; the mount
listings of `secret/` are forbidden while its child listing would succeed
(`cstat = ok`, one child `g/`).  The audit counts one error, stores no
mounts for `secret`, keeps `secret` in `namespaces` (discovered by root) —
but `secret/g/` is never enqueued or visited: the child listing of a failed
path is not attempted, contrary to the claim. -/
theorem forbidden_counterexample :
    (audit_cluster envOK treeForbidden cfgFast 1 [] "outputs" "20260101").st.errors = 1 ∧
    hasKey (audit_cluster envOK treeForbidden cfgFast 1 [] "outputs" "20260101").st.auth_methods
      ['s', 'e', 'c', 'r', 'e', 't'] = false ∧
    hasKey (audit_cluster envOK treeForbidden cfgFast 1 [] "outputs" "20260101").st.secret_engines
      ['s', 'e', 'c', 'r', 'e', 't'] = false ∧
    hasKey (audit_cluster envOK treeForbidden cfgFast 1 [] "outputs" "20260101").st.namespaces
      ['s', 'e', 'c', 'r', 'e', 't'] = true ∧
    secretSub.cstat = ListStatus.ok ∧
    secretSub.children.length = 1 ∧
    (audit_cluster envOK treeForbidden cfgFast 1 [] "outputs" "20260101").st.visitLog =
      [[], ['o', 'k', '/'], ['s', 'e', 'c', 'r', 'e', 't', '/']] ∧
    ['s', 'e', 'c', 'r', 'e', 't', '/', 'g', '/'] ∉
      (audit_cluster envOK treeForbidden cfgFast 1 [] "outputs" "20260101").st.enqLog :=
  ⟨rfl, rfl, rfl, rfl, rfl, rfl, rfl, by decide⟩

theorem tryWrites_eq (env : FsEnv) (paths : List String) :
    tryWrites env paths =
      { written := paths.takeWhile (fun p => !env.failing.contains p),
        raised := paths.any (fun p => env.failing.contains p) } := by
  induction paths with
  | nil => rfl
  | cons p rest ih =>
    simp only [tryWrites, ih, List.takeWhile_cons, List.any_cons]
    by_cases h : p ∈ env.failing <;> simp [h]

/-- C7 (amended): a fetch failure is fatal to the exporter subcommand and
nothing is written; but a write failure is NOT fatal: `process_activity_data`
and `process_entity_export_data` catch `FileProcessingError`, the subcommand
returns normally, and the files written before the first failing write
remain on disk (partial output).  The files left behind are exactly the
prefix of the write sequence before the first failure. -/
theorem export_errors (env : FsEnv) (e : String) (byNs : List ActivityNs)
    (cluster dir date : String) (r0 : ERec) (rest : List ERec)
    (hct : ¬ (r0 :: rest).all (fun r => !(r.any (fun kv => kv.1 == "client_type")))) :
    run_activity_export env (.error e) cluster dir date =
      { fatalError := some e, written := [], nsRows := [], mountRows := [] } ∧
    (run_activity_export env (.ok byNs) cluster dir date).fatalError = none ∧
    (run_activity_export env (.ok byNs) cluster dir date).written =
      (activityFiles dir cluster date).takeWhile (fun p => !env.failing.contains p) ∧
    (process_entity_export_data env (r0 :: rest) cluster dir date).written =
      (entityFiles dir cluster date).takeWhile (fun p => !env.failing.contains p) := by
  refine ⟨rfl, rfl, ?_, ?_⟩
  · show (process_activity_data env byNs cluster dir date).written = _
    simp [process_activity_data, tryWrites_eq]
  · simp only [process_entity_export_data]
    rw [if_neg hct]
    simp [tryWrites_eq]

/-- C7 witness: the fetch-fatal case and the swallowed-write-failure case at
concrete inputs: with the mounts CSV failing, the JSON and the namespaces
CSV written before it remain. -/
theorem export_errors_witness :
    (¬ ([[("client_type", "entity")]] : List ERec).all
        (fun r => !(r.any (fun kv => kv.1 == "client_type")))) ∧
    (run_activity_export { failing := ["o/c-activity-mounts-d.csv"] }
        (.error "boom") "c" "o" "d" =
      { fatalError := some "boom", written := [], nsRows := [], mountRows := [] } ∧
    (run_activity_export { failing := ["o/c-activity-mounts-d.csv"] }
        (.ok []) "c" "o" "d").fatalError = none ∧
    (run_activity_export { failing := ["o/c-activity-mounts-d.csv"] }
        (.ok []) "c" "o" "d").written =
      (activityFiles "o" "c" "d").takeWhile
        (fun p => !(({ failing := ["o/c-activity-mounts-d.csv"] } : FsEnv).failing.contains p)) ∧
    (process_entity_export_data { failing := ["o/c-activity-mounts-d.csv"] }
        [[("client_type", "entity")]] "c" "o" "d").written =
      (entityFiles "o" "c" "d").takeWhile
        (fun p => !(({ failing := ["o/c-activity-mounts-d.csv"] } : FsEnv).failing.contains p))) :=
  ⟨by decide,
   export_errors { failing := ["o/c-activity-mounts-d.csv"] } "boom" [] "c" "o" "d"
     [("client_type", "entity")] [] (by decide)⟩

/-- C7 counterexample: with the mounts CSV write failing, the run leaves the
activity JSON and the namespaces CSV on disk and raises nothing — the claim
that any error is fatal and no partial output is produced is false. -/
theorem export_partial_counterexample :
    (run_activity_export { failing := ["o/c-activity-mounts-d.csv"] }
        (.ok [{ namespace_id := some "root", namespace_path := some "",
                counts := [], mounts := some [] }]) "c" "o" "d").written =
      ["o/c-activity-d.json", "o/c-activity-namespaces-d.csv"] ∧
    (run_activity_export { failing := ["o/c-activity-mounts-d.csv"] }
        (.ok [{ namespace_id := some "root", namespace_path := some "",
                counts := [], mounts := some [] }]) "c" "o" "d").fatalError = none :=
  ⟨by decide, rfl⟩
theorem lookupKV_any (r : ERec) (k w : String) (h : lookupKV r k = some w) :
    r.any (fun kv => kv.1 == k) = true := by
  induction r with
  | nil => simp [lookupKV] at h
  | cons kv rest ih =>
    by_cases hk : kv.1 == k
    · simp [List.any_cons, hk]
    · simp only [lookupKV, hk, Bool.false_eq_true, ite_false] at h
      simp [List.any_cons, hk, ih h]

theorem lookupKV_map_set (r : ERec) (k v w : String) (h : lookupKV r k = some w) :
    lookupKV (r.map (fun kv => if kv.1 == k then (k, v) else kv)) k = some v := by
  induction r with
  | nil => simp [lookupKV] at h
  | cons kv rest ih =>
    by_cases hk : kv.1 == k
    · simp [lookupKV, hk]
    · simp only [lookupKV, hk, Bool.false_eq_true, ite_false] at h
      rw [List.map_cons, if_neg hk]
      simp only [lookupKV, hk, Bool.false_eq_true, ite_false]
      exact ih h

theorem lookupKV_set_found (r : ERec) (k v w : String) (h : lookupKV r k = some w) :
    lookupKV (setKV r k v) k = some v := by
  unfold setKV
  rw [if_pos (lookupKV_any r k w h)]
  exact lookupKV_map_set r k v w h

/-- C8 (amended): the rewrite to `"root/"` is applied exactly when the
server returned `namespace_id = "root"` and `namespace_path = ""`, and every
other namespace path is emitted unchanged; mount rows inherit the namespace
row's path, and the entity exporter applies the same conditional rewrite.
Hence `"root/"` in the output does not imply that the server returned the
root condition: an entry whose raw path is already `"root/"` is also emitted
as `"root/"` (so the claimed "if and only if" fails in that direction). -/
theorem root_path_rewrite (e : ActivityNs) (r : ERec) :
    ((processNs e).1.namespace_path = "root/" ↔
      (e.namespace_id.getD "" = "root" ∧ e.namespace_path.getD "" = "") ∨
        e.namespace_path.getD "" = "root/") ∧
    (¬(e.namespace_id.getD "" = "root" ∧ e.namespace_path.getD "" = "") →
      (processNs e).1.namespace_path = e.namespace_path.getD "") ∧
    (∀ m ∈ (processNs e).2, m.namespace_path = (processNs e).1.namespace_path) ∧
    (lookupKV (entityRewrite r) "namespace_path" = some "root/" ↔
      (lookupKV r "namespace_id" = some "root" ∧
        lookupKV r "namespace_path" = some "") ∨
        lookupKV r "namespace_path" = some "root/") := by
  refine ⟨?_, ?_, ?_, ?_⟩
  · by_cases hc : e.namespace_id.getD "" = "root" ∧ e.namespace_path.getD "" = ""
    · simp [processNs, hc]
    · simp only [processNs, if_neg hc]
      constructor
      · intro h; exact Or.inr h
      · rintro (h | h)
        · exact absurd h hc
        · exact h
  · intro hc; simp [processNs, hc]
  · intro m hm
    by_cases hc : e.namespace_id.getD "" = "root" ∧ e.namespace_path.getD "" = "" <;>
      simp [processNs, hc] at hm ⊢ <;> rcases hm with ⟨mnt, hmnt, hval⟩ <;>
      rw [← hval]
  · by_cases hc : lookupKV r "namespace_id" = some "root" ∧
        lookupKV r "namespace_path" = some ""
    · simp only [entityRewrite, if_pos hc]
      rw [lookupKV_set_found r "namespace_path" "root/" "" hc.2]
      simp [hc]
    · simp only [entityRewrite, if_neg hc]
      constructor
      · intro h; exact Or.inr h
      · rintro (h | h)
        · exact absurd h hc
        · exact h

/-- C8 witness: an entry with the root condition is rewritten to `"root/"`;
the entity rewrite behaves identically on the matching record. -/
theorem root_path_rewrite_witness :
    ((processNs rootEntry).1.namespace_path = "root/" ↔
      (rootEntry.namespace_id.getD "" = "root" ∧
        rootEntry.namespace_path.getD "" = "") ∨
        rootEntry.namespace_path.getD "" = "root/") ∧
    (¬(rootEntry.namespace_id.getD "" = "root" ∧
        rootEntry.namespace_path.getD "" = "") →
      (processNs rootEntry).1.namespace_path = rootEntry.namespace_path.getD "") ∧
    (∀ m ∈ (processNs rootEntry).2,
      m.namespace_path = (processNs rootEntry).1.namespace_path) ∧
    (lookupKV (entityRewrite rootERec) "namespace_path" = some "root/" ↔
      (lookupKV rootERec "namespace_id" = some "root" ∧
        lookupKV rootERec "namespace_path" = some "") ∨
        lookupKV rootERec "namespace_path" = some "root/") :=
  root_path_rewrite rootEntry rootERec

/-- C8 counterexample: the server returns `namespace_id = "x"` with
`namespace_path = "root/"`; the output path is `"root/"` although the
namespace id is not `"root"` and the raw path is not `""` — the claimed
"emitted iff the server returned id root and empty path" is false. -/
theorem root_path_counterexample :
    (processNs oddEntry).1.namespace_path = "root/" ∧
    oddEntry.namespace_id.getD "" ≠ "root" ∧
    oddEntry.namespace_path.getD "" ≠ "" :=
  ⟨rfl, by decide, by decide⟩

theorem renderRow_ok (fns : List String) (r : CsvRow)
    (h : ∀ kv ∈ r, kv.1 ∈ fns) :
    renderRow fns r = .ok (fns.map (fun k => (lookupKV r k).getD "")) := by
  unfold renderRow
  have hfalse : r.any (fun kv => !(fns.contains kv.1)) = false := by
    simp only [List.any_eq_false]
    intro kv hkv
    simp [h kv hkv]
  rw [hfalse]
  rfl

theorem renderRows_ok (fns : List String) (rows : List CsvRow)
    (h : ∀ r ∈ rows, ∀ kv ∈ r, kv.1 ∈ fns) :
    renderRows fns rows =
      .ok (rows.map (fun r => fns.map (fun k => (lookupKV r k).getD ""))) := by
  induction rows with
  | nil => rfl
  | cons r rest ih =>
    have h1 := renderRow_ok fns r (h r (List.mem_cons_self r rest))
    have h2 := ih (fun r2 hr2 => h r2 (List.mem_cons_of_mem r hr2))
    simp [renderRows, h1, h2]

/-- C9 (amended): called with a nonempty list of row mappings, no explicit
headers, and every row's keys among the first row's keys, `write_csv`
creates the parent directory and writes a header row equal to the first
row's key-set in first-row order, followed by one data row per record (keys
missing from a record render as the `DictWriter` default `""`).  A record
holding a key outside the first row's keys makes `DictWriter` raise
`ValueError` instead (see the counterexample), so the claim holds only on
key-uniform inputs. -/
theorem write_csv_header_rows (r0 : CsvRow) (rest : List CsvRow)
    (hsub : ∀ r ∈ r0 :: rest, ∀ kv ∈ r, kv.1 ∈ rowKeys r0) :
    write_csv (r0 :: rest) none =
      .ok { madeDir := true,
            lines := rowKeys r0 ::
              (r0 :: rest).map
                (fun r => (rowKeys r0).map (fun k => (lookupKV r k).getD "")) } := by
  unfold write_csv
  simp only [renderRows_ok (rowKeys r0) (r0 :: rest) hsub]

/-- C9 witness: two rows, the second missing key `b`; the file is the header
`a, b` and two data rows with the missing cell empty. -/
theorem write_csv_header_rows_witness :
    write_csv [[("a", "1"), ("b", "2")], [("a", "3")]] none =
      .ok { madeDir := true,
            lines := rowKeys [("a", "1"), ("b", "2")] ::
              [[("a", "1"), ("b", "2")], [("a", "3")]].map
                (fun r => (rowKeys [("a", "1"), ("b", "2")]).map
                  (fun k => (lookupKV r k).getD "")) } :=
  write_csv_header_rows [("a", "1"), ("b", "2")] [[("a", "3")]] (by decide)

/-- C9 counterexample: a second record carrying a key `b` that is not among
the first record's keys makes `DictWriter.writerows` raise `ValueError`
(`extrasaction="raise"`), so the written file is not the claimed header plus
one data row per record. -/
theorem write_csv_counterexample :
    write_csv [[("a", "1")], [("a", "1"), ("b", "2")]] none =
      .error "dict contains fields not in fieldnames" :=
  rfl

/- ### Lemmas: the JSON decoder -/

theorem digitsToNat_append (ds : PStr) (c : Char) :
    digitsToNat (ds ++ [c]) = digitsToNat ds * 10 + (c.toNat - 48) := by
  simp [digitsToNat, List.foldl_append]

theorem natDigitsAux_spec :
    ∀ fuel n, n < fuel →
      natDigitsAux fuel n ≠ [] ∧
      (∀ c ∈ natDigitsAux fuel n, isDigitC c = true) ∧
      digitsToNat (natDigitsAux fuel n) = n := by
  intro fuel
  induction fuel with
  | zero => intro n h; omega
  | succ fuel ih =>
    intro n h
    by_cases h10 : n < 10
    · simp only [natDigitsAux, if_pos h10]
      refine ⟨by simp, ?_, ?_⟩
      · intro c hc
        simp only [List.mem_singleton] at hc
        subst hc
        interval_cases n <;> decide
      · interval_cases n <;> decide
    · simp only [natDigitsAux, if_neg h10]
      have hdiv : n / 10 < fuel := by
        have := Nat.div_lt_self (by omega : 0 < n) (by omega : 1 < 10)
        omega
      obtain ⟨hne, hdig, hval⟩ := ih (n / 10) hdiv
      have hm : n % 10 < 10 := Nat.mod_lt _ (by omega)
      have hdigit : isDigitC (digitChar (n % 10)) = true ∧
          (digitChar (n % 10)).toNat - 48 = n % 10 := by
        set m := n % 10 with hmm
        interval_cases m <;> exact ⟨by decide, by decide⟩
      refine ⟨by simp, ?_, ?_⟩
      · intro c hc
        rcases List.mem_append.mp hc with hc | hc
        · exact hdig c hc
        · simp only [List.mem_singleton] at hc; subst hc; exact hdigit.1
      · rw [digitsToNat_append, hval, hdigit.2]
        omega

theorem natDigits_spec (n : Nat) :
    natDigits n ≠ [] ∧ (∀ c ∈ natDigits n, isDigitC c = true) ∧
      digitsToNat (natDigits n) = n :=
  natDigitsAux_spec (n + 1) n (by omega)

theorem digit_ne (c x : Char) (h : isDigitC c = true) (hx : isDigitC x = false) :
    c ≠ x := by
  intro he; rw [he, hx] at h; cases h

theorem digit_not_ws (c : Char) (h : isDigitC c = true) : isWsC c = false := by
  by_contra hws
  have hws2 : isWsC c = true := by
    cases hcc : isWsC c
    · exact absurd hcc hws
    · rfl
  simp only [isWsC, decide_eq_true_eq] at hws2
  rcases hws2 with h1 | h1 | h1 | h1 <;> (subst h1; exact absurd h (by decide))


theorem span_digits (ds rest : PStr) (hd : ∀ c ∈ ds, isDigitC c = true)
    (hr : noDigitHeadB rest = true) :
    (ds ++ rest).takeWhile isDigitC = ds ∧ (ds ++ rest).dropWhile isDigitC = rest := by
  induction ds with
  | nil =>
    simp only [List.nil_append]
    cases rest with
    | nil => simp
    | cons c t =>
      simp only [noDigitHeadB, Bool.not_eq_true'] at hr
      simp [List.takeWhile_cons, List.dropWhile_cons, hr]
  | cons c ds ih =>
    have hc := hd c (List.mem_cons_self c ds)
    obtain ⟨h1, h2⟩ := ih (fun x hx => hd x (List.mem_cons_of_mem c hx))
    simp [List.takeWhile_cons, List.dropWhile_cons, hc, h1, h2]

theorem parseNum_ser (n : Int) (rest : PStr) (hr : noDigitHeadB rest = true) :
    parseNum (intSer n ++ rest) = some (.num n, rest) := by
  obtain ⟨hne, hdig, hval⟩ := natDigits_spec n.natAbs
  obtain ⟨htake, hdrop⟩ := span_digits (natDigits n.natAbs) rest hdig hr
  have hE : (natDigits n.natAbs).isEmpty = false := by
    cases h : natDigits n.natAbs
    · exact absurd h hne
    · rfl
  by_cases hneg : n < 0
  · have hn : -(Int.ofNat (digitsToNat (natDigits n.natAbs))) = n := by
      rw [hval]; simp only [Int.ofNat_eq_coe]; omega
    simp only [intSer, if_pos hneg, List.cons_append]
    simp [parseNum, htake, hdrop, hE]
    exact_mod_cast hn
  · simp only [intSer, if_neg hneg]
    cases hds : natDigits n.natAbs with
    | nil => exact absurd hds hne
    | cons c ds =>
      have hc : isDigitC c = true := by
        apply hdig; rw [hds]; exact List.mem_cons_self c ds
      have hcm : c ≠ '-' := digit_ne c '-' hc (by decide)
      have hn : ((digitsToNat (natDigits n.natAbs) : Int)) = n := by
        rw [hval]; omega
      simp only [List.cons_append, parseNum, if_neg hcm]
      rw [← List.cons_append, ← hds, htake, hdrop, hE]
      simp only [Bool.false_eq_true, ite_false, Option.some.injEq, Prod.mk.injEq]
      exact ⟨by exact_mod_cast congrArg Json.num hn, trivial⟩

theorem escStr_cons (c : Char) (s : PStr) : escStr (c :: s) = escChar c ++ escStr s := rfl

theorem psb_quote (rest : PStr) : parseStringBody (quoteC :: rest) = some ([], rest) := by
  rw [parseStringBody.eq_def]
  simp

theorem psb_esc (d : Char) (rest : PStr) (hd : d = quoteC ∨ d = bslashC) :
    parseStringBody (bslashC :: d :: rest) =
      match parseStringBody rest with
      | some (str, r) => some (d :: str, r)
      | none => none := by
  rw [parseStringBody.eq_def]
  have h1 : bslashC ≠ quoteC := by decide
  simp [h1, hd]

theorem psb_lit (c : Char) (rest : PStr) (h1 : c ≠ quoteC) (h2 : c ≠ bslashC) :
    parseStringBody (c :: rest) =
      match parseStringBody rest with
      | some (str, r) => some (c :: str, r)
      | none => none := by
  rw [parseStringBody.eq_def]
  simp [h1, h2]

theorem parseStringBody_esc (s rest : PStr) :
    parseStringBody (escStr s ++ (quoteC :: rest)) = some (s, rest) := by
  induction s with
  | nil => exact psb_quote rest
  | cons c s ih =>
    rw [escStr_cons, List.append_assoc]
    by_cases hc : c = quoteC ∨ c = bslashC
    · simp only [escChar, if_pos hc, List.cons_append, List.nil_append]
      rw [psb_esc c _ hc, ih]
    · simp only [escChar, if_neg hc, List.cons_append, List.nil_append]
      push_neg at hc
      rw [psb_lit c _ hc.1 hc.2, ih]

theorem ser_head_spec (v : Json) :
    ∃ c t, Json.ser v = c :: t ∧ isWsC c = false ∧ c ≠ ']' ∧ c ≠ ',' := by
  cases v with
  | null => exact ⟨'n', _, rfl, by decide, by decide, by decide⟩
  | bool b =>
    cases b
    · exact ⟨'f', _, rfl, by decide, by decide, by decide⟩
    · exact ⟨'t', _, rfl, by decide, by decide, by decide⟩
  | num n =>
    by_cases hneg : n < 0
    · have hser : Json.ser (Json.num n) = '-' :: natDigits n.natAbs := by
        simp [Json.ser, intSer, hneg]
      exact ⟨'-', natDigits n.natAbs, hser, by decide, by decide, by decide⟩
    · obtain ⟨hne, hdig, _⟩ := natDigits_spec n.natAbs
      cases hds : natDigits n.natAbs with
      | nil => exact absurd hds hne
      | cons c t =>
        have hc : isDigitC c = true := by
          apply hdig; rw [hds]; exact List.mem_cons_self c t
        have hser : Json.ser (Json.num n) = c :: t := by
          simp [Json.ser, intSer, hneg, hds]
        exact ⟨c, t, hser, digit_not_ws c hc, digit_ne c ']' hc (by decide),
          digit_ne c ',' hc (by decide)⟩
  | str s => exact ⟨quoteC, _, rfl, by decide, by decide, by decide⟩
  | arr xs => exact ⟨'[', _, rfl, by decide, by decide, by decide⟩
  | obj kvs => exact ⟨lbraceC, _, rfl, by decide, by decide, by decide⟩

theorem skipWs_ser (v : Json) (rest : PStr) :
    skipWs (Json.ser v ++ rest) = Json.ser v ++ rest := by
  obtain ⟨c, t, hser, hws, _, _⟩ := ser_head_spec v
  rw [hser]
  simp [skipWs, List.dropWhile_cons, hws]

theorem ser_last_spec (v : Json) :
    ∃ c, (Json.ser v).getLast? = some c ∧ isWsC c = false := by
  cases v with
  | null => exact ⟨'l', rfl, by decide⟩
  | bool b =>
    cases b
    · exact ⟨'e', rfl, by decide⟩
    · exact ⟨'e', rfl, by decide⟩
  | num n =>
    obtain ⟨hne, hdig, _⟩ := natDigits_spec n.natAbs
    rcases List.eq_nil_or_concat (natDigits n.natAbs) with hds | ⟨ds, d, hds⟩
    · exact absurd hds hne
    · rw [List.concat_eq_append] at hds
      have hd : isDigitC d = true := by
        apply hdig; rw [hds]; simp
      refine ⟨d, ?_, digit_not_ws d hd⟩
      by_cases hneg : n < 0
      · have hser : Json.ser (Json.num n) = '-' :: (ds ++ [d]) := by
          simp [Json.ser, intSer, hneg, hds]
        rw [hser, ← List.cons_append, List.getLast?_concat]
      · have hser : Json.ser (Json.num n) = ds ++ [d] := by
          simp [Json.ser, intSer, hneg, hds]
        rw [hser, List.getLast?_concat]
  | str s =>
    refine ⟨quoteC, ?_, by decide⟩
    show (quoteC :: (escStr s ++ [quoteC])).getLast? = some quoteC
    rw [← List.cons_append, List.getLast?_concat]
  | arr xs =>
    refine ⟨']', ?_, by decide⟩
    show ('[' :: (serElems xs ++ [']'])).getLast? = some ']'
    rw [← List.cons_append, List.getLast?_concat]
  | obj kvs =>
    refine ⟨rbraceC, ?_, by decide⟩
    show (lbraceC :: (serMembers kvs ++ [rbraceC])).getLast? = some rbraceC
    rw [← List.cons_append, List.getLast?_concat]

theorem parseVal_step (fuel : Nat) (c : Char) (rest : PStr) :
    parseVal (fuel + 1) (c :: rest) =
      (if c = quoteC then
        match parseStringBody rest with
        | some (str, r) => some (.str str, r)
        | none => none
      else if c = '[' then
        let r1 := skipWs rest
        match r1 with
        | [] => none
        | d :: r2 =>
          if d = ']' then some (.arr [], r2)
          else
            match parseElems fuel r1 with
            | some (vs, r3) => some (.arr vs, r3)
            | none => none
      else if c = lbraceC then
        let r1 := skipWs rest
        match r1 with
        | [] => none
        | d :: r2 =>
          if d = rbraceC then some (.obj [], r2)
          else
            match parseMembers fuel r1 with
            | some (kvs, r3) => some (.obj kvs, r3)
            | none => none
      else if c = 't' then
        match rest with
        | 'r' :: 'u' :: 'e' :: r => some (.bool true, r)
        | _ => none
      else if c = 'f' then
        match rest with
        | 'a' :: 'l' :: 's' :: 'e' :: r => some (.bool false, r)
        | _ => none
      else if c = 'n' then
        match rest with
        | 'u' :: 'l' :: 'l' :: r => some (.null, r)
        | _ => none
      else if c = '-' ∨ isDigitC c then parseNum (c :: rest)
      else none) := rfl

theorem parseElems_step (fuel : Nat) (s : PStr) :
    parseElems (fuel + 1) s =
      (match parseVal fuel (skipWs s) with
      | none => none
      | some (v, r) =>
        match skipWs r with
        | [] => none
        | c :: r2 =>
          if c = ',' then
            match parseElems fuel r2 with
            | some (vs, r3) => some (v :: vs, r3)
            | none => none
          else if c = ']' then some ([v], r2)
          else none) := rfl

theorem parseMembers_step (fuel : Nat) (s : PStr) :
    parseMembers (fuel + 1) s =
      (match skipWs s with
      | [] => none
      | c :: rest =>
        if c = quoteC then
          match parseStringBody rest with
          | none => none
          | some (k, r1) =>
            match skipWs r1 with
            | [] => none
            | d :: r2 =>
              if d = ':' then
                match parseVal fuel (skipWs r2) with
                | none => none
                | some (v, r3) =>
                  match skipWs r3 with
                  | [] => none
                  | e :: r4 =>
                    if e = ',' then
                      match parseMembers fuel r4 with
                      | some (kvs, r5) => some ((k, v) :: kvs, r5)
                      | none => none
                    else if e = rbraceC then some ([(k, v)], r4)
                    else none
              else none
        else none) := rfl

theorem skipWs_cons_nonws (c : Char) (t : PStr) (h : isWsC c = false) :
    skipWs (c :: t) = c :: t := by
  simp [skipWs, List.dropWhile_cons, h]

theorem jsize_pos (v : Json) : 1 ≤ v.jsize := by
  cases v <;> simp [Json.jsize]

theorem jsizeElems_cons (x : Json) (r : List Json) :
    jsizeElems (x :: r) = 1 + x.jsize + jsizeElems r := rfl

theorem jsizeMembers_cons (kv : PStr × Json) (r : List (PStr × Json)) :
    jsizeMembers (kv :: r) = 1 + kv.2.jsize + jsizeMembers r := rfl

theorem serElems_one (x : Json) : serElems [x] = Json.ser x := rfl

theorem serElems_cons2 (x y : Json) (r : List Json) :
    serElems (x :: y :: r) = Json.ser x ++ ',' :: serElems (y :: r) := rfl

theorem serMembers_one (kv : PStr × Json) :
    serMembers [kv] = quoteC :: (escStr kv.1 ++ quoteC :: ':' :: Json.ser kv.2) := rfl

theorem serMembers_cons2 (kv kv2 : PStr × Json) (r : List (PStr × Json)) :
    serMembers (kv :: kv2 :: r) =
      (quoteC :: (escStr kv.1 ++ quoteC :: ':' :: Json.ser kv.2)) ++
        ',' :: serMembers (kv2 :: r) := rfl

theorem parse_complete : ∀ fuel : Nat,
    (∀ v : Json, ∀ rest : PStr, v.jsize ≤ fuel → noDigitHeadB rest = true →
      parseVal fuel (Json.ser v ++ rest) = some (v, rest)) ∧
    (∀ xs : List Json, ∀ rest : PStr, xs ≠ [] → jsizeElems xs ≤ fuel →
      parseElems fuel (serElems xs ++ (']' :: rest)) = some (xs, rest)) ∧
    (∀ kvs : List (PStr × Json), ∀ rest : PStr, kvs ≠ [] → jsizeMembers kvs ≤ fuel →
      parseMembers fuel (serMembers kvs ++ (rbraceC :: rest)) = some (kvs, rest)) := by
  intro fuel
  induction fuel with
  | zero =>
    refine ⟨?_, ?_, ?_⟩
    · intro v rest hsz _
      have := jsize_pos v
      omega
    · intro xs rest hne hsz
      cases xs with
      | nil => exact absurd rfl hne
      | cons x r => rw [jsizeElems_cons] at hsz; omega
    · intro kvs rest hne hsz
      cases kvs with
      | nil => exact absurd rfl hne
      | cons kv r => rw [jsizeMembers_cons] at hsz; omega
  | succ fuel ih =>
    obtain ⟨ihv, ihe, ihm⟩ := ih
    refine ⟨?_, ?_, ?_⟩
    · intro v rest hsz hnd
      cases v with
      | null => rfl
      | bool b => cases b <;> rfl
      | num n =>
        by_cases hneg : n < 0
        · have hser : Json.ser (.num n) ++ rest = '-' :: (natDigits n.natAbs ++ rest) := by
            simp [Json.ser, intSer, hneg]
          rw [hser, parseVal_step]
          rw [if_neg (by decide : ¬ ('-' : Char) = quoteC),
            if_neg (by decide : ¬ ('-' : Char) = '['),
            if_neg (by decide : ¬ ('-' : Char) = lbraceC),
            if_neg (by decide : ¬ ('-' : Char) = 't'),
            if_neg (by decide : ¬ ('-' : Char) = 'f'),
            if_neg (by decide : ¬ ('-' : Char) = 'n'),
            if_pos (Or.inl rfl : ('-' : Char) = '-' ∨ isDigitC '-' = true)]
          have : '-' :: (natDigits n.natAbs ++ rest) = intSer n ++ rest := by
            simp [intSer, hneg]
          rw [this, parseNum_ser n rest hnd]
        · obtain ⟨hne, hdig, _⟩ := natDigits_spec n.natAbs
          cases hds : natDigits n.natAbs with
          | nil => exact absurd hds hne
          | cons c t =>
            have hc : isDigitC c = true := by
              apply hdig; rw [hds]; exact List.mem_cons_self c t
            have hser : Json.ser (.num n) ++ rest = c :: (t ++ rest) := by
              simp [Json.ser, intSer, hneg, hds]
            rw [hser, parseVal_step]
            rw [if_neg (digit_ne c quoteC hc (by decide)),
              if_neg (digit_ne c '[' hc (by decide)),
              if_neg (digit_ne c lbraceC hc (by decide)),
              if_neg (digit_ne c 't' hc (by decide)),
              if_neg (digit_ne c 'f' hc (by decide)),
              if_neg (digit_ne c 'n' hc (by decide)),
              if_pos (Or.inr hc : c = '-' ∨ isDigitC c = true)]
            have : c :: (t ++ rest) = intSer n ++ rest := by
              simp [intSer, hneg, hds]
            rw [this, parseNum_ser n rest hnd]
      | str s =>
        have hser : Json.ser (.str s) ++ rest = quoteC :: (escStr s ++ (quoteC :: rest)) := by
          show (quoteC :: (escStr s ++ [quoteC])) ++ rest = _
          simp
        rw [hser, parseVal_step, if_pos rfl, parseStringBody_esc]
      | arr xs =>
        cases xs with
        | nil => rfl
        | cons x xs2 =>
          have hsz2 : jsizeElems (x :: xs2) ≤ fuel := by
            simp only [Json.jsize] at hsz; omega
          have main := ihe (x :: xs2) rest (by simp) hsz2
          obtain ⟨c, t, hx, hws, hbr, hcm⟩ := ser_head_spec x
          have hser : Json.ser (.arr (x :: xs2)) ++ rest =
              '[' :: (serElems (x :: xs2) ++ (']' :: rest)) := by
            show ('[' :: (serElems (x :: xs2) ++ [']'])) ++ rest = _
            simp
          have hhead : ∃ t2, serElems (x :: xs2) ++ (']' :: rest) = c :: t2 := by
            cases xs2 with
            | nil => exact ⟨t ++ (']' :: rest), by rw [serElems_one, hx]; simp⟩
            | cons y r =>
              exact ⟨(t ++ (',' :: serElems (y :: r))) ++ (']' :: rest),
                by rw [serElems_cons2, hx]; simp⟩
          obtain ⟨t2, ht2⟩ := hhead
          rw [ht2] at main
          rw [hser, parseVal_step,
            if_neg (by decide : ¬ ('[' : Char) = quoteC), if_pos rfl, ht2]
          simp only [skipWs_cons_nonws c t2 hws, if_neg hbr, main]
      | obj kvs =>
        cases kvs with
        | nil => rfl
        | cons kv kvs2 =>
          have hsz2 : jsizeMembers (kv :: kvs2) ≤ fuel := by
            simp only [Json.jsize] at hsz; omega
          have main := ihm (kv :: kvs2) rest (by simp) hsz2
          have hser : Json.ser (.obj (kv :: kvs2)) ++ rest =
              lbraceC :: (serMembers (kv :: kvs2) ++ (rbraceC :: rest)) := by
            show (lbraceC :: (serMembers (kv :: kvs2) ++ [rbraceC])) ++ rest = _
            simp
          have hhead : ∃ t2, serMembers (kv :: kvs2) ++ (rbraceC :: rest) = quoteC :: t2 := by
            cases kvs2 with
            | nil =>
              exact ⟨(escStr kv.1 ++ quoteC :: ':' :: Json.ser kv.2) ++ (rbraceC :: rest),
                by rw [serMembers_one]; simp⟩
            | cons kv2 r =>
              exact ⟨((escStr kv.1 ++ quoteC :: ':' :: Json.ser kv.2) ++
                  (',' :: serMembers (kv2 :: r))) ++ (rbraceC :: rest),
                by rw [serMembers_cons2]; simp⟩
          obtain ⟨t2, ht2⟩ := hhead
          rw [ht2] at main
          rw [hser, parseVal_step,
            if_neg (by decide : ¬ lbraceC = quoteC),
            if_neg (by decide : ¬ lbraceC = '['), if_pos rfl, ht2]
          simp only [skipWs_cons_nonws quoteC t2 (by decide),
            if_neg (by decide : ¬ quoteC = rbraceC), main]
    · intro xs rest hne hsz
      cases xs with
      | nil => exact absurd rfl hne
      | cons x xs2 =>
        rw [jsizeElems_cons] at hsz
        have hszx : x.jsize ≤ fuel := by omega
        rw [parseElems_step]
        cases xs2 with
        | nil =>
          rw [serElems_one, skipWs_ser x (']' :: rest),
            ihv x (']' :: rest) hszx (by rfl)]
          simp only [skipWs_cons_nonws ']' rest (by decide),
            if_neg (by decide : ¬ (']' : Char) = ','), if_pos rfl]
          rfl
        | cons y r =>
          have hassoc : serElems (x :: y :: r) ++ (']' :: rest) =
              Json.ser x ++ (',' :: (serElems (y :: r) ++ (']' :: rest))) := by
            rw [serElems_cons2]; simp
          rw [hassoc, skipWs_ser x _,
            ihv x (',' :: (serElems (y :: r) ++ (']' :: rest))) hszx (by rfl)]
          simp only [skipWs_cons_nonws ',' _ (by decide), if_pos rfl]
          rw [ihe (y :: r) rest (by simp) (by omega)]
          rfl
    · intro kvs rest hne hsz
      cases kvs with
      | nil => exact absurd rfl hne
      | cons kv kvs2 =>
        rw [jsizeMembers_cons] at hsz
        have hszx : kv.2.jsize ≤ fuel := by omega
        rw [parseMembers_step]
        cases kvs2 with
        | nil =>
          have hassoc : serMembers [kv] ++ (rbraceC :: rest) =
              quoteC :: (escStr kv.1 ++ (quoteC :: (':' ::
                (Json.ser kv.2 ++ (rbraceC :: rest))))) := by
            rw [serMembers_one]; simp
          rw [hassoc]
          simp only [skipWs_cons_nonws quoteC _ (by decide), if_pos rfl,
            parseStringBody_esc]
          simp only [skipWs_cons_nonws ':' _ (by decide), if_pos rfl,
            skipWs_ser kv.2 _, ihv kv.2 (rbraceC :: rest) hszx (by rfl)]
          simp only [skipWs_cons_nonws rbraceC rest (by decide),
            if_neg (by decide : ¬ rbraceC = ','), if_pos rfl]
          rfl
        | cons kv2 r =>
          have hassoc : serMembers (kv :: kv2 :: r) ++ (rbraceC :: rest) =
              quoteC :: (escStr kv.1 ++ (quoteC :: (':' ::
                (Json.ser kv.2 ++ (',' :: (serMembers (kv2 :: r) ++
                  (rbraceC :: rest))))))) := by
            rw [serMembers_cons2]; simp
          rw [hassoc]
          simp only [skipWs_cons_nonws quoteC _ (by decide), if_pos rfl,
            parseStringBody_esc]
          simp only [skipWs_cons_nonws ':' _ (by decide), if_pos rfl,
            skipWs_ser kv.2 _,
            ihv kv.2 (',' :: (serMembers (kv2 :: r) ++ (rbraceC :: rest))) hszx (by rfl)]
          simp only [skipWs_cons_nonws ',' _ (by decide), if_pos rfl]
          rw [ihm (kv2 :: r) rest (by simp) (by omega)]
          rfl

theorem jsize_le_ser_aux : ∀ n : Nat,
    (∀ v : Json, v.jsize ≤ n → v.jsize ≤ (Json.ser v).length) ∧
    (∀ xs : List Json, jsizeElems xs ≤ n → jsizeElems xs ≤ (serElems xs).length + 1) ∧
    (∀ kvs : List (PStr × Json), jsizeMembers kvs ≤ n →
      jsizeMembers kvs ≤ (serMembers kvs).length + 1) := by
  intro n
  induction n with
  | zero =>
    refine ⟨?_, ?_, ?_⟩
    · intro v h; have := jsize_pos v; omega
    · intro xs h
      cases xs with
      | nil => simp [jsizeElems]
      | cons x r => rw [jsizeElems_cons] at h; have := jsize_pos x; omega
    · intro kvs h
      cases kvs with
      | nil => simp [jsizeMembers]
      | cons kv r => rw [jsizeMembers_cons] at h; have := jsize_pos kv.2; omega
  | succ n ih =>
    obtain ⟨ihv, ihe, ihm⟩ := ih
    refine ⟨?_, ?_, ?_⟩
    · intro v hsz
      cases v with
      | null => simp [Json.jsize, Json.ser]
      | bool b => cases b <;> simp [Json.jsize, Json.ser]
      | num m =>
        obtain ⟨hne, _, _⟩ := natDigits_spec m.natAbs
        have hlen : 1 ≤ (natDigits m.natAbs).length := by
          cases h : natDigits m.natAbs
          · exact absurd h hne
          · simp
        by_cases hneg : m < 0 <;>
          simp [Json.jsize, Json.ser, intSer, hneg] <;> omega
      | str s => simp [Json.jsize, Json.ser]
      | arr xs =>
        have h1 : jsizeElems xs ≤ n := by simp only [Json.jsize] at hsz; omega
        have := ihe xs h1
        simp only [Json.jsize, Json.ser, List.length_cons, List.length_append,
          List.length_singleton]
        omega
      | obj kvs =>
        have h1 : jsizeMembers kvs ≤ n := by simp only [Json.jsize] at hsz; omega
        have := ihm kvs h1
        simp only [Json.jsize, Json.ser, List.length_cons, List.length_append,
          List.length_singleton]
        omega
    · intro xs hsz
      cases xs with
      | nil => simp [jsizeElems]
      | cons x r =>
        rw [jsizeElems_cons] at hsz ⊢
        have hx : x.jsize ≤ n := by have := jsize_pos x; omega
        have h1 := ihv x hx
        cases r with
        | nil =>
          rw [serElems_one]
          have h0 : jsizeElems ([] : List Json) = 0 := rfl
          omega
        | cons y r2 =>
          have h2 := ihe (y :: r2) (by rw [jsizeElems_cons] at hsz ⊢; omega)
          rw [serElems_cons2]
          simp only [List.length_append, List.length_cons]
          omega
    · intro kvs hsz
      cases kvs with
      | nil => simp [jsizeMembers]
      | cons kv r =>
        rw [jsizeMembers_cons] at hsz ⊢
        have hx : kv.2.jsize ≤ n := by have := jsize_pos kv.2; omega
        have h1 := ihv kv.2 hx
        cases r with
        | nil =>
          rw [serMembers_one]
          simp only [List.length_cons, List.length_append]
          have h0 : jsizeMembers ([] : List (PStr × Json)) = 0 := rfl
          omega
        | cons kv2 r2 =>
          have h2 := ihm (kv2 :: r2) (by rw [jsizeMembers_cons] at hsz ⊢; omega)
          rw [serMembers_cons2]
          simp only [List.length_append, List.length_cons]
          omega

theorem jsize_le_ser (v : Json) : v.jsize ≤ (Json.ser v).length :=
  (jsize_le_ser_aux v.jsize).1 v (le_refl _)

theorem jsonLoads_ser (v : Json) : jsonLoads (Json.ser v) = .ok v := by
  unfold jsonLoads
  have h1 : skipWs (Json.ser v) = Json.ser v := by
    have := skipWs_ser v []
    simpa using this
  rw [h1]
  have h2 : parseVal ((Json.ser v).length + 1) (Json.ser v ++ []) = some (v, []) :=
    (parse_complete _).1 v [] (by have := jsize_le_ser v; omega) rfl
  rw [List.append_nil] at h2
  rw [h2]
  rfl

theorem escStr_no_ctrl (s : PStr) (hws : s.all (fun c => 32 ≤ c.toNat) = true) :
    nlC ∉ escStr s := by
  induction s with
  | nil => simp [escStr]
  | cons c t ih =>
    simp only [List.all_cons, Bool.and_eq_true, decide_eq_true_eq] at hws
    rw [escStr_cons]
    intro hmem
    rcases List.mem_append.mp hmem with h | h
    · unfold escChar at h
      have hnl : nlC ≠ c := by
        intro he
        have : c.toNat = 10 := by rw [← he]; rfl
        omega
      split at h
      · simp only [List.mem_cons, List.mem_singleton] at h
        rcases h with h | h
        · exact absurd h (by decide)
        · rcases h with h | h
          · exact hnl h
          · exact absurd h (List.not_mem_nil nlC)
      · simp only [List.mem_singleton] at h
        exact hnl h
    · exact ih hws.2 h

theorem ser_no_nl_aux : ∀ n : Nat,
    (∀ v : Json, v.jsize ≤ n → v.wfJ = true → nlC ∉ Json.ser v) ∧
    (∀ xs : List Json, jsizeElems xs ≤ n → wfElems xs = true → nlC ∉ serElems xs) ∧
    (∀ kvs : List (PStr × Json), jsizeMembers kvs ≤ n → wfMembers kvs = true →
      nlC ∉ serMembers kvs) := by
  intro n
  induction n with
  | zero =>
    refine ⟨?_, ?_, ?_⟩
    · intro v h _; have := jsize_pos v; omega
    · intro xs h _
      cases xs with
      | nil => simp [serElems]
      | cons x r => rw [jsizeElems_cons] at h; have := jsize_pos x; omega
    · intro kvs h _
      cases kvs with
      | nil => simp [serMembers]
      | cons kv r => rw [jsizeMembers_cons] at h; have := jsize_pos kv.2; omega
  | succ n ih =>
    obtain ⟨ihv, ihe, ihm⟩ := ih
    refine ⟨?_, ?_, ?_⟩
    · intro v hsz hwf
      cases v with
      | null => decide
      | bool b => cases b <;> decide
      | num m =>
        obtain ⟨_, hdig, _⟩ := natDigits_spec m.natAbs
        have hnd : nlC ∉ natDigits m.natAbs := by
          intro hmem
          have := hdig nlC hmem
          exact absurd this (by decide)
        by_cases hneg : m < 0
        · simp only [Json.ser, intSer, if_pos hneg]
          intro hmem
          rcases List.mem_cons.mp hmem with h | h
          · exact absurd h (by decide)
          · exact hnd h
        · simp only [Json.ser, intSer, if_neg hneg]
          exact hnd
      | str s =>
        simp only [Json.wfJ] at hwf
        intro hmem
        rcases List.mem_cons.mp hmem with h | h
        · exact absurd h (by decide)
        · rcases List.mem_append.mp h with h | h
          · exact escStr_no_ctrl s hwf h
          · simp only [List.mem_singleton] at h
            exact absurd h (by decide)
      | arr xs =>
        have h1 : jsizeElems xs ≤ n := by simp only [Json.jsize] at hsz; omega
        simp only [Json.wfJ] at hwf
        intro hmem
        rcases List.mem_cons.mp hmem with h | h
        · exact absurd h (by decide)
        · rcases List.mem_append.mp h with h | h
          · exact ihe xs h1 hwf h
          · simp only [List.mem_singleton] at h
            exact absurd h (by decide)
      | obj kvs =>
        have h1 : jsizeMembers kvs ≤ n := by simp only [Json.jsize] at hsz; omega
        simp only [Json.wfJ] at hwf
        intro hmem
        rcases List.mem_cons.mp hmem with h | h
        · exact absurd h (by decide)
        · rcases List.mem_append.mp h with h | h
          · exact ihm kvs h1 hwf h
          · simp only [List.mem_singleton] at h
            exact absurd h (by decide)
    · intro xs hsz hwf
      cases xs with
      | nil => simp [serElems]
      | cons x r =>
        rw [jsizeElems_cons] at hsz
        simp only [wfElems, Bool.and_eq_true] at hwf
        have hx := ihv x (by have := jsize_pos x; omega) hwf.1
        cases r with
        | nil => rw [serElems_one]; exact hx
        | cons y r2 =>
          have hr := ihe (y :: r2) (by rw [jsizeElems_cons] at hsz ⊢; omega) hwf.2
          rw [serElems_cons2]
          intro hmem
          rcases List.mem_append.mp hmem with h | h
          · exact hx h
          · rcases List.mem_cons.mp h with h | h
            · exact absurd h (by decide)
            · exact hr h
    · intro kvs hsz hwf
      cases kvs with
      | nil => simp [serMembers]
      | cons kv r =>
        rw [jsizeMembers_cons] at hsz
        simp only [wfMembers, Bool.and_eq_true] at hwf
        have hv := ihv kv.2 (by have := jsize_pos kv.2; omega) hwf.1.2
        have hone : nlC ∉ quoteC :: (escStr kv.1 ++ quoteC :: ':' :: Json.ser kv.2) := by
          intro hmem
          rcases List.mem_cons.mp hmem with h | h
          · exact absurd h (by decide)
          · rcases List.mem_append.mp h with h | h
            · exact escStr_no_ctrl kv.1 hwf.1.1 h
            · rcases List.mem_cons.mp h with h | h
              · exact absurd h (by decide)
              · rcases List.mem_cons.mp h with h | h
                · exact absurd h (by decide)
                · exact hv h
        cases r with
        | nil => rw [serMembers_one]; exact hone
        | cons kv2 r2 =>
          have hr := ihm (kv2 :: r2) (by rw [jsizeMembers_cons] at hsz ⊢; omega) hwf.2
          rw [serMembers_cons2]
          intro hmem
          rcases List.mem_append.mp hmem with h | h
          · exact hone h
          · rcases List.mem_cons.mp h with h | h
            · exact absurd h (by decide)
            · exact hr h

theorem ser_no_nl (v : Json) (hwf : v.wfJ = true) : nlC ∉ Json.ser v :=
  (ser_no_nl_aux v.jsize).1 v (le_refl _) hwf

theorem intercalate_one (a : PStr) : List.intercalate [nlC] [a] = a := by
  simp [List.intercalate]

theorem intercalate_cons2 (a b : PStr) (r : List PStr) :
    List.intercalate [nlC] (a :: b :: r) = a ++ nlC :: List.intercalate [nlC] (b :: r) := by
  simp [List.intercalate, List.intersperse]

theorem intercalate_map_cons2 (a b : Json) (r : List Json) :
    List.intercalate [nlC] ((a :: b :: r).map Json.ser) =
      Json.ser a ++ nlC :: List.intercalate [nlC] ((b :: r).map Json.ser) := by
  rw [List.map_cons, List.map_cons, intercalate_cons2, ← List.map_cons]

theorem loadsLines_ser (vs : List Json) : loadsLines (vs.map Json.ser) = some vs := by
  induction vs with
  | nil => rfl
  | cons v r ih => simp [loadsLines, jsonLoads_ser, ih]

theorem ndjson_last (vs : List Json) : ∀ v : Json,
    ∃ c, (List.intercalate [nlC] ((v :: vs).map Json.ser)).getLast? = some c ∧
      isWsC c = false := by
  induction vs with
  | nil =>
    intro v
    obtain ⟨c, h1, h2⟩ := ser_last_spec v
    exact ⟨c, by simpa [intercalate_one] using h1, h2⟩
  | cons v2 r ih =>
    intro v
    obtain ⟨c, h1, h2⟩ := ih v2
    refine ⟨c, ?_, h2⟩
    rw [intercalate_map_cons2]
    rw [List.getLast?_append]
    have hc : (nlC :: List.intercalate [nlC] ((v2 :: r).map Json.ser)).getLast? = some c := by
      show ([nlC] ++ List.intercalate [nlC] ((v2 :: r).map Json.ser)).getLast? = some c
      rw [List.getLast?_append, h1]
      rfl
    rw [hc]
    rfl

theorem stripWs_id (s : PStr) (c d : Char) (t : PStr) (hhead : s = c :: t)
    (hc : isWsC c = false) (hlast : s.getLast? = some d) (hd : isWsC d = false) :
    stripWs s = s := by
  unfold stripWs
  have h1 : s.dropWhile isWsC = s := by
    rw [hhead, List.dropWhile_cons, hc]
    simp
  rw [h1]
  have hrev : s.reverse.head? = some d := by
    rw [List.head?_reverse]; exact hlast
  cases hr : s.reverse with
  | nil => rw [hr] at hrev; cases hrev
  | cons e rt =>
    rw [hr] at hrev
    have he : e = d := by
      simp only [List.head?_cons, Option.some.injEq] at hrev
      exact hrev
    rw [List.dropWhile_cons, he, hd]
    simp only [Bool.false_eq_true, ite_false]
    rw [← he, ← hr, List.reverse_reverse]

/-- C6 (amended): the decoder of `VaultClient.get` satisfies:
`Decode(serialise(v)) = v` for every well-formed single JSON value `v`
(strings free of control characters, integer numerals); and for every list
of `k ≥ 2` well-formed values, `Decode` of their newline-joined
serialisations is the list of those values.  For `k = 1` however the
newline-join is a single JSON document, `response.json()` succeeds, and the
decoder returns the bare value rather than a one-element list (see the
counterexample), so the claimed NDJSON law holds only from two lines up. -/
theorem decoder_roundtrip (v v1 v2 : Json) (vs : List Json)
    (hv : v.wfJ = true) (h1 : v1.wfJ = true) (h2 : v2.wfJ = true)
    (hs : ∀ x ∈ vs, x.wfJ = true) :
    decodeBody (Json.ser v) = .ok v ∧
    decodeBody (ndjsonJoin [Json.ser v]) = .ok v ∧
    decodeBody (ndjsonJoin ((v1 :: v2 :: vs).map Json.ser)) =
      .ok (.arr (v1 :: v2 :: vs)) := by
  have hsingle : decodeBody (Json.ser v) = .ok v := by
    unfold decodeBody
    rw [jsonLoads_ser]
  refine ⟨hsingle, ?_, ?_⟩
  · show decodeBody (List.intercalate [nlC] [Json.ser v]) = .ok v
    rw [intercalate_one]
    exact hsingle
  · -- the NDJSON body and its decomposition
    set X := List.intercalate [nlC] ((v2 :: vs).map Json.ser) with hX
    have hbody : ndjsonJoin ((v1 :: v2 :: vs).map Json.ser) =
        Json.ser v1 ++ (nlC :: X) := by
      show List.intercalate [nlC] ((v1 :: v2 :: vs).map Json.ser) = _
      rw [intercalate_map_cons2]
    have hX2 : ∃ Y, X = Json.ser v2 ++ Y := by
      cases vs with
      | nil => exact ⟨[], by rw [hX]; simp [intercalate_one]⟩
      | cons v3 r =>
        exact ⟨nlC :: List.intercalate [nlC] ((v3 :: r).map Json.ser),
          by rw [hX, intercalate_map_cons2]⟩
    obtain ⟨Y, hY⟩ := hX2
    obtain ⟨c2, t2, hser2, hws2, _, _⟩ := ser_head_spec v2
    have hXw : skipWs X = X := by
      rw [hY]; exact skipWs_ser v2 Y
    have hXne : X ≠ [] := by
      rw [hY, hser2]; simp
    -- the single-document parse fails with extra data
    have hload : jsonLoads (ndjsonJoin ((v1 :: v2 :: vs).map Json.ser)) =
        .error .extraData := by
      rw [hbody]
      unfold jsonLoads
      rw [skipWs_ser v1 (nlC :: X)]
      have hfuel : v1.jsize ≤ (Json.ser v1 ++ (nlC :: X)).length + 1 := by
        have := jsize_le_ser v1
        simp only [List.length_append]
        omega
      rw [(parse_complete _).1 v1 (nlC :: X) hfuel rfl]
      have hnz : skipWs (nlC :: X) = X := by
        rw [skipWs, List.dropWhile_cons]
        simp only [show isWsC nlC = true from rfl, ite_true]
        exact hXw
      simp [hnz, hXne]
    -- the NDJSON fallback
    unfold decodeBody
    rw [hload]
    have hlines : (stripWs (ndjsonJoin ((v1 :: v2 :: vs).map Json.ser))).splitOn nlC =
        (v1 :: v2 :: vs).map Json.ser := by
      obtain ⟨c1, t1, hser1, hws1, _, _⟩ := ser_head_spec v1
      obtain ⟨d, hd1, hd2⟩ := ndjson_last (v2 :: vs) v1
      have hstrip : stripWs (ndjsonJoin ((v1 :: v2 :: vs).map Json.ser)) =
          ndjsonJoin ((v1 :: v2 :: vs).map Json.ser) := by
        refine stripWs_id _ c1 d (t1 ++ (nlC :: X)) ?_ hws1 ?_ hd2
        · rw [hbody, hser1]; rfl
        · exact hd1
      rw [hstrip]
      show List.splitOn nlC ([nlC].intercalate ((v1 :: v2 :: vs).map Json.ser)) = _
      refine List.splitOn_intercalate ((v1 :: v2 :: vs).map Json.ser) nlC ?_ (by simp)
      intro l hl
      rw [List.mem_map] at hl
      obtain ⟨x, hx, hlx⟩ := hl
      rw [← hlx]
      apply ser_no_nl
      rcases List.mem_cons.mp hx with hx1 | hx1
      · rw [hx1]; exact h1
      · rcases List.mem_cons.mp hx1 with hx2 | hx2
        · rw [hx2]; exact h2
        · exact hs x hx2
    rw [hlines]
    have hfilter : ((v1 :: v2 :: vs).map Json.ser).filter (fun l => !l.isEmpty) =
        (v1 :: v2 :: vs).map Json.ser := by
      rw [List.filter_eq_self]
      intro l hl
      rw [List.mem_map] at hl
      obtain ⟨x, _, hlx⟩ := hl
      obtain ⟨c, t, hser, _, _, _⟩ := ser_head_spec x
      rw [← hlx, hser]
      rfl
    rw [hfilter]
    simp only [loadsLines_ser]

/-- C6 witness: the decoder laws evaluated at an object, and at a two-line
NDJSON body of a number and a boolean. -/
theorem decoder_roundtrip_witness :
    decodeBody (Json.ser (.obj [(['a'], .num 1)])) = .ok (.obj [(['a'], .num 1)]) ∧
    decodeBody (ndjsonJoin [Json.ser (.obj [(['a'], .num 1)])]) =
      .ok (.obj [(['a'], .num 1)]) ∧
    decodeBody (ndjsonJoin (([.num 1, .bool true] : List Json).map Json.ser)) =
      .ok (.arr [.num 1, .bool true]) :=
  decoder_roundtrip (.obj [(['a'], .num 1)]) (.num 1) (.bool true) []
    (by decide) rfl rfl (by intro x hx; cases hx)

/-- C6 counterexample: the NDJSON-join of the single value `1` is the body
`"1"`; `response.json()` parses it as the bare value `1`, not as the
one-element list `[1]` the claim requires for `k = 1`. -/
theorem decoder_ndjson_counterexample :
    decodeBody (ndjsonJoin [(Json.num 1).ser]) = .ok (Json.num 1) ∧
    (Except.ok (Json.num 1) : Except String Json) ≠ .ok (.arr [.num 1]) :=
  ⟨rfl, fun h => by injection h with h2; exact Json.noConfusion h2⟩

/- ### Uniqueness of the traversal: each path enqueued, visited, and
inserted into `namespaces` at most once (claim C2) -/

theorem allPathsFrom_eq (p : PStr) (t : NsTree) :
    allPathsFrom p t = p :: pathsBelow p t.children := by
  cases t with
  | node n i m c cs => rfl

theorem pathsBelow_nil (p : PStr) : pathsBelow p [] = [] := rfl

theorem pathsBelow_cons (p : PStr) (c : NsTree) (rest : List NsTree) :
    pathsBelow p (c :: rest) = allPathsFrom (p ++ c.name) c ++ pathsBelow p rest := rfl

theorem size_eq_children (t : NsTree) : t.size = 1 + sizeList t.children := by
  cases t with
  | node n i m c cs => rfl

theorem wfB_parts (t : NsTree) (h : t.wfB = true) :
    nodupPathsB (t.children.map NsTree.name) = true ∧ wfListB t.children = true := by
  cases t with
  | node n i m c cs =>
    simpa [NsTree.wfB, NsTree.children, Bool.and_eq_true] using h

theorem wfListB_mem (cs : List NsTree) (h : wfListB cs = true) :
    ∀ c ∈ cs, goodNameB c.name = true ∧ NsTree.wfB c = true := by
  induction cs with
  | nil => intro c hc; cases hc
  | cons d rest ih =>
    simp only [wfListB, Bool.and_eq_true] at h
    intro c hc
    rcases List.mem_cons.mp hc with rfl | hc
    · exact ⟨h.1.1, h.1.2⟩
    · exact ih h.2 c hc

theorem nodupPathsB_cons (x : PStr) (r : List PStr) (h : nodupPathsB (x :: r) = true) :
    x ∉ r ∧ nodupPathsB r = true := by
  simp only [nodupPathsB, Bool.and_eq_true, Bool.not_eq_true'] at h
  refine ⟨?_, h.2⟩
  intro hm
  have : r.contains x = true := by simpa using hm
  rw [this] at h
  exact Bool.noConfusion h.1

theorem goodNameB_spec (nm : PStr) (h : goodNameB nm = true) :
    ∃ a, nm = a ++ ['/'] ∧ a ≠ [] ∧ '/' ∉ a := by
  rcases List.eq_nil_or_concat nm with rfl | ⟨a, e, rfl⟩
  · simp [goodNameB] at h
  · rw [List.concat_eq_append] at h ⊢
    simp only [goodNameB, List.dropLast_concat, List.getLast?_concat, Bool.and_eq_true,
      beq_iff_eq, Option.some.injEq, Bool.not_eq_true'] at h
    obtain ⟨⟨hne, hnc⟩, he⟩ := h
    refine ⟨a, by rw [he], ?_, ?_⟩
    · intro hnil
      rw [hnil] at hne
      exact Bool.noConfusion hne
    · intro hmem
      have : a.contains '/' = true := by simpa using hmem
      rw [this] at hnc
      exact Bool.noConfusion hnc

theorem seg_clash : ∀ (a b u v : PStr), '/' ∉ a → '/' ∉ b →
    a ++ '/' :: u = b ++ '/' :: v → a = b ∧ u = v := by
  intro a
  induction a with
  | nil =>
    intro b u v _ hb h
    cases b with
    | nil => simpa using h
    | cons f bs =>
      exfalso
      simp only [List.nil_append, List.cons_append, List.cons.injEq] at h
      exact hb (h.1 ▸ List.mem_cons_self f bs)
  | cons e as ih =>
    intro b u v ha hb h
    cases b with
    | nil =>
      exfalso
      simp only [List.nil_append, List.cons_append, List.cons.injEq] at h
      exact ha (h.1 ▸ List.mem_cons_self e as)
    | cons f bs =>
      simp only [List.cons_append, List.cons.injEq] at h
      have ha' : '/' ∉ as := fun hm => ha (List.mem_cons_of_mem e hm)
      have hb' : '/' ∉ bs := fun hm => hb (List.mem_cons_of_mem f hm)
      obtain ⟨h1, h2⟩ := ih bs u v ha' hb' h.2
      exact ⟨by rw [h.1, h1], h2⟩

theorem goodName_clash (n1 n2 u1 u2 : PStr)
    (h1 : goodNameB n1 = true) (h2 : goodNameB n2 = true)
    (h : n1 ++ u1 = n2 ++ u2) : n1 = n2 := by
  obtain ⟨a, ha, _, hna⟩ := goodNameB_spec n1 h1
  obtain ⟨b, hb, _, hnb⟩ := goodNameB_spec n2 h2
  subst ha
  subst hb
  have h' : a ++ '/' :: u1 = b ++ '/' :: u2 := by
    simpa [List.append_assoc] using h
  obtain ⟨rfl, -⟩ := seg_clash a b u1 u2 hna hnb h'
  rfl

theorem mem_pathsBelow_shape : ∀ n (cs : List NsTree), sizeList cs ≤ n →
    ∀ p x, x ∈ pathsBelow p cs → ∃ c ∈ cs, ∃ u, x = (p ++ c.name) ++ u := by
  intro n
  induction n with
  | zero =>
    intro cs hsz p x hx
    cases cs with
    | nil => rw [pathsBelow_nil] at hx; cases hx
    | cons c rest =>
      exfalso
      have e1 : sizeList (c :: rest) = NsTree.size c + sizeList rest := rfl
      have := size_pos c
      omega
  | succ n ih =>
    intro cs hsz p x hx
    cases cs with
    | nil => rw [pathsBelow_nil] at hx; cases hx
    | cons c rest =>
      have e1 : sizeList (c :: rest) = NsTree.size c + sizeList rest := rfl
      have e2 : NsTree.size c = 1 + sizeList c.children := size_eq_children c
      have h1 := size_pos c
      rw [pathsBelow_cons] at hx
      rcases List.mem_append.mp hx with hx | hx
      · rw [allPathsFrom_eq] at hx
        rcases List.mem_cons.mp hx with rfl | hx
        · exact ⟨c, List.mem_cons_self c rest, [], (List.append_nil _).symm⟩
        · have hk : sizeList c.children ≤ n := by omega
          obtain ⟨d, hd, u, hu⟩ := ih c.children hk (p ++ c.name) x hx
          exact ⟨c, List.mem_cons_self c rest, d.name ++ u,
            by rw [hu, List.append_assoc]⟩
      · have hr : sizeList rest ≤ n := by omega
        obtain ⟨d, hd, u, hu⟩ := ih rest hr p x hx
        exact ⟨d, List.mem_cons_of_mem c hd, u, hu⟩

theorem mem_pathsBelow_longer (cs : List NsTree) (hwf : wfListB cs = true)
    (p x : PStr) (hx : x ∈ pathsBelow p cs) : p.length < x.length := by
  obtain ⟨c, hc, u, hu⟩ := mem_pathsBelow_shape (sizeList cs) cs le_rfl p x hx
  obtain ⟨hg, -⟩ := wfListB_mem cs hwf c hc
  obtain ⟨a, ha, -, -⟩ := goodNameB_spec c.name hg
  have h1 : c.name.length = a.length + 1 := by rw [ha]; simp
  have h2 : x.length = (p ++ c.name ++ u).length := by rw [hu]
  simp only [List.length_append] at h2
  omega

theorem nodup_pathsBelow : ∀ n (cs : List NsTree), sizeList cs ≤ n →
    nodupPathsB (cs.map NsTree.name) = true → wfListB cs = true →
    ∀ p, (pathsBelow p cs).Nodup := by
  intro n
  induction n with
  | zero =>
    intro cs hsz hnd hwf p
    cases cs with
    | nil => rw [pathsBelow_nil]; exact List.nodup_nil
    | cons c rest =>
      exfalso
      have e1 : sizeList (c :: rest) = NsTree.size c + sizeList rest := rfl
      have := size_pos c
      omega
  | succ n ih =>
    intro cs hsz hnd hwf p
    cases cs with
    | nil => rw [pathsBelow_nil]; exact List.nodup_nil
    | cons c rest =>
      have e1 : sizeList (c :: rest) = NsTree.size c + sizeList rest := rfl
      have e2 : NsTree.size c = 1 + sizeList c.children := size_eq_children c
      have hszc : sizeList c.children ≤ n := by omega
      have hszr : sizeList rest ≤ n := by have := size_pos c; omega
      have hwf' : goodNameB c.name = true ∧ NsTree.wfB c = true ∧ wfListB rest = true := by
        simp only [wfListB, Bool.and_eq_true] at hwf
        exact ⟨hwf.1.1, hwf.1.2, hwf.2⟩
      obtain ⟨hgood, hcwf, hrest⟩ := hwf'
      have hnd' := nodupPathsB_cons c.name (rest.map NsTree.name) (by simpa using hnd)
      obtain ⟨hcnd, hclist⟩ := wfB_parts c hcwf
      have h1 : (pathsBelow (p ++ c.name) c.children).Nodup :=
        ih c.children hszc hcnd hclist (p ++ c.name)
      have h2 : (pathsBelow p rest).Nodup := ih rest hszr hnd'.2 hrest p
      have hclash : ∀ u, (p ++ c.name) ++ u ∉ pathsBelow p rest := by
        intro u hmem
        obtain ⟨c2, hc2, u2, he⟩ :=
          mem_pathsBelow_shape (sizeList rest) rest le_rfl p _ hmem
        obtain ⟨hg2, -⟩ := wfListB_mem rest hrest c2 hc2
        have he' : c.name ++ u = c2.name ++ u2 := by
          have he2 : p ++ (c.name ++ u) = p ++ (c2.name ++ u2) := by
            simpa [List.append_assoc] using he
          exact List.append_cancel_left he2
        have hne : c.name = c2.name := goodName_clash _ _ _ _ hgood hg2 he'
        apply hnd'.1
        rw [hne]
        exact List.mem_map.mpr ⟨c2, hc2, rfl⟩
      rw [pathsBelow_cons, allPathsFrom_eq, List.cons_append]
      refine List.nodup_cons.mpr ⟨?_, ?_⟩
      · intro hmem
        rcases List.mem_append.mp hmem with hmem | hmem
        · have := mem_pathsBelow_longer c.children hclist (p ++ c.name) _ hmem
          omega
        · exact hclash [] (by simpa using hmem)
      · rw [List.nodup_append]
        refine ⟨h1, h2, ?_⟩
        intro x hx1 hx2
        obtain ⟨d, hd, u, hu⟩ :=
          mem_pathsBelow_shape (sizeList c.children) c.children le_rfl (p ++ c.name) x hx1
        apply hclash (d.name ++ u)
        rw [← List.append_assoc, ← hu]
        exact hx2

theorem nodup_allPathsFrom (t : NsTree) (hwf : t.wfB = true) (p : PStr) :
    (allPathsFrom p t).Nodup := by
  obtain ⟨hnd, hlist⟩ := wfB_parts t hwf
  rw [allPathsFrom_eq]
  refine List.nodup_cons.mpr
    ⟨?_, nodup_pathsBelow (sizeList t.children) t.children le_rfl hnd hlist p⟩
  intro hmem
  have := mem_pathsBelow_longer t.children hlist p p hmem
  omega

theorem queuePathsBelow_append (a b : List (PStr × NsTree)) :
    queuePathsBelow (a ++ b) = queuePathsBelow a ++ queuePathsBelow b := by
  induction a with
  | nil => rfl
  | cons it rest ih => simp [queuePathsBelow, ih]

theorem subperm_app_r {α : Type} {l1 l2 : List α} (r : List α) (h : l1.Subperm l2) :
    (l1 ++ r).Subperm (l2 ++ r) := by
  obtain ⟨m, hp, hs⟩ := h
  exact ⟨m ++ r, hp.append_right r, hs.append_right r⟩

theorem subperm_app_l {α : Type} {l1 l2 : List α} (l : List α) (h : l1.Subperm l2) :
    (l ++ l1).Subperm (l ++ l2) := by
  obtain ⟨m, hp, hs⟩ := h
  exact ⟨l ++ m, List.Perm.append_left l hp, hs.append_left l⟩

theorem nodup_of_subperm {α : Type} {l1 l2 : List α} (h : l1.Subperm l2)
    (h2 : l2.Nodup) : l1.Nodup := by
  obtain ⟨m, hp, hs⟩ := h
  exact hp.nodup_iff.mp (hs.nodup h2)

theorem kids_paths_perm (p : PStr) (cs : List NsTree) :
    ((cs.map (fun c => (p ++ c.name, c))).map (fun it => it.1) ++
      queuePathsBelow (cs.map (fun c => (p ++ c.name, c)))).Perm (pathsBelow p cs) := by
  induction cs with
  | nil => simp [queuePathsBelow, pathsBelow_nil]
  | cons c rest ih =>
    rw [List.map_cons, List.map_cons, pathsBelow_cons, allPathsFrom_eq]
    simp only [queuePathsBelow, List.cons_append]
    refine List.Perm.cons _ ?_
    refine List.Perm.trans ?_ (List.Perm.append_left _ ih)
    rw [← List.append_assoc, ← List.append_assoc]
    exact List.Perm.append_right _ List.perm_append_comm

theorem visit_kids_subperm (p : PStr) (t : NsTree) (s : AuditSt) :
    ((visitNode p t s).2.map (fun it => it.1) ++
      queuePathsBelow (visitNode p t s).2).Subperm (pathsBelow p t.children) := by
  rcases visitNode_kids p t s with h | h
  · rw [h]
    exact List.nil_subperm
  · rw [h]
    exact (kids_paths_perm p t.children).subperm

theorem runQueue_subperm (cfg : RateCfg) :
    ∀ fuel q s slp s' slp',
      runQueue cfg fuel q s slp = some (s', slp') →
      s'.enqLog.Subperm (s.enqLog ++ queuePathsBelow q) := by
  intro fuel
  induction fuel with
  | zero =>
    intro q s slp s' slp' h
    cases q with
    | nil =>
      simp only [runQueue, Option.some.injEq, Prod.mk.injEq] at h
      rw [← h.1]
      simp only [queuePathsBelow, List.append_nil]
      exact List.Subperm.refl _
    | cons it rest => exact absurd h (by simp [runQueue])
  | succ fuel ih =>
    intro q s slp s' slp' h
    cases q with
    | nil =>
      simp only [runQueue, Option.some.injEq, Prod.mk.injEq] at h
      rw [← h.1]
      simp only [queuePathsBelow, List.append_nil]
      exact List.Subperm.refl _
    | cons it rest =>
      obtain ⟨p, t⟩ := it
      simp only [runQueue] at h
      have hih := ih _ _ _ _ _ h
      rw [visitNode_enqLog, queuePathsBelow_append] at hih
      refine hih.trans ?_
      have hp : ((s.enqLog ++ (visitNode p t s).2.map (fun it => it.1)) ++
          (queuePathsBelow rest ++ queuePathsBelow (visitNode p t s).2)).Perm
          (s.enqLog ++ (((visitNode p t s).2.map (fun it => it.1) ++
            queuePathsBelow (visitNode p t s).2) ++ queuePathsBelow rest)) := by
        rw [List.append_assoc, List.append_assoc]
        refine List.Perm.append_left _ ?_
        exact List.Perm.append_left _ List.perm_append_comm
      refine hp.subperm.trans ?_
      simp only [queuePathsBelow]
      exact subperm_app_l s.enqLog (subperm_app_r _ (visit_kids_subperm p t s))

theorem drop_one_append {α : Type} (a b : List α) (h : a ≠ []) :
    (a ++ b).drop 1 = a.drop 1 ++ b := by
  cases a with
  | nil => exact absurd rfl h
  | cons x xs => simp

theorem rstrip_seg (q a : PStr) (hne : a ≠ []) (hna : '/' ∉ a) :
    rstripSlash (q ++ (a ++ ['/'])) = q ++ a := by
  obtain ⟨e, t, hav⟩ : ∃ e t, a.reverse = e :: t := by
    cases hav : a.reverse with
    | nil => exact absurd (List.reverse_eq_nil_iff.mp hav) hne
    | cons e t => exact ⟨e, t, rfl⟩
  have he : e ≠ '/' := by
    intro hcon
    apply hna
    rw [← hcon]
    exact List.mem_reverse.mp (hav ▸ List.mem_cons_self e t)
  have ha2 : a = t.reverse ++ [e] := by
    rw [← List.reverse_reverse a, hav, List.reverse_cons]
  have h1 : (q ++ (a ++ ['/'])).reverse = '/' :: ((e :: t) ++ q.reverse) := by
    rw [← hav]
    simp [List.reverse_append]
  have h2 : ((q ++ (a ++ ['/'])).reverse).dropWhile (fun c => c = '/') =
      e :: (t ++ q.reverse) := by
    rw [h1, List.dropWhile_cons, if_pos (by simp), List.cons_append, List.dropWhile_cons,
      if_neg (by simp [he])]
  rw [rstripSlash, h2, List.reverse_cons, List.reverse_append, List.reverse_reverse, ha2]
  simp [List.append_assoc]

theorem childShaped_of_good (p nm : PStr) (h : goodNameB nm = true) :
    childShaped (p ++ nm) := by
  obtain ⟨a, ha, hne, hna⟩ := goodNameB_spec nm h
  subst ha
  have hr : rstripSlash (p ++ (a ++ ['/'])) = p ++ a := rstrip_seg p a hne hna
  show rstripSlash (p ++ (a ++ ['/'])) ++ ['/'] = p ++ (a ++ ['/'])
  rw [hr, List.append_assoc]

theorem runQueue_inserts (cfg : RateCfg) :
    ∀ fuel q s slp s' slp',
      runQueue cfg fuel q s slp = some (s', slp') →
      (∀ it ∈ q, NsTree.wfB it.2 = true) →
      (∀ x ∈ s.enqLog.drop 1, childShaped x) →
      s.nsInsertLog = (s.enqLog.drop 1).map rstripSlash →
      s.enqLog ≠ [] →
      (∀ x ∈ s'.enqLog.drop 1, childShaped x) ∧
        s'.nsInsertLog = (s'.enqLog.drop 1).map rstripSlash := by
  intro fuel
  induction fuel with
  | zero =>
    intro q s slp s' slp' h hq hshape hins hne
    cases q with
    | nil =>
      simp only [runQueue, Option.some.injEq, Prod.mk.injEq] at h
      rw [← h.1]
      exact ⟨hshape, hins⟩
    | cons it rest => exact absurd h (by simp [runQueue])
  | succ fuel ih =>
    intro q s slp s' slp' h hq hshape hins hne
    cases q with
    | nil =>
      simp only [runQueue, Option.some.injEq, Prod.mk.injEq] at h
      rw [← h.1]
      exact ⟨hshape, hins⟩
    | cons it rest =>
      obtain ⟨p, t⟩ := it
      simp only [runQueue] at h
      have hwt : NsTree.wfB t = true := hq (p, t) (List.mem_cons_self _ _)
      have hq' : ∀ it ∈ rest ++ (visitNode p t s).2, NsTree.wfB it.2 = true := by
        intro it hit
        rcases List.mem_append.mp hit with hit | hit
        · exact hq it (List.mem_cons_of_mem _ hit)
        · rcases visitNode_kids p t s with hk | hk
          · rw [hk] at hit; cases hit
          · rw [hk] at hit
            obtain ⟨c, hc, rfl⟩ := List.mem_map.mp hit
            exact (wfListB_mem t.children (wfB_parts t hwt).2 c hc).2
      have hshape' : ∀ x ∈ (visitNode p t s).1.enqLog.drop 1, childShaped x := by
        rw [visitNode_enqLog, drop_one_append _ _ hne]
        intro x hx
        rcases List.mem_append.mp hx with hx | hx
        · exact hshape x hx
        · rcases visitNode_kids p t s with hk | hk
          · rw [hk] at hx; cases hx
          · rw [hk] at hx
            simp only [List.map_map, List.mem_map, Function.comp] at hx
            obtain ⟨c, hc, hceq⟩ := hx
            rw [← hceq]
            exact childShaped_of_good p c.name
              (wfListB_mem t.children (wfB_parts t hwt).2 c hc).1
      have hins' : (visitNode p t s).1.nsInsertLog =
          ((visitNode p t s).1.enqLog.drop 1).map rstripSlash := by
        rw [visitNode_nsInsertLog, visitNode_enqLog, drop_one_append _ _ hne,
          List.map_append, hins, List.map_map]
        rfl
      have hne' : (visitNode p t s).1.enqLog ≠ [] := by
        rw [visitNode_enqLog]
        simp [hne]
      exact ih _ _ _ _ _ h hq' hshape' hins' hne'

/-- C2: for every finite well-formed namespace tree (distinct sibling names,
each of the `key_info` shape `segment + "/"`), a successful audit run
dequeues and visits each reachable path at most once, enqueues no path
twice, and writes each discovered path into the `namespaces` map exactly
once: the visit log, the enqueue log, and the `namespaces`-insertion log of
the final state are all duplicate-free. -/
theorem audit_visits_once (env : ConnEnv) (t : NsTree) (cfg : RateCfg)
    (W : Nat) (startPath : PStr) (dir date c : String)
    (hconn : validate_connection env = .ok c) (hwf : t.wfB = true) :
    ∃ st slp,
      audit_cluster env t cfg W startPath dir date =
        { connError := none, st := st, sleepTotal := slp, sentinels := W, joined := W,
          files := reportFiles dir c date st } ∧
      st.visitLog.Nodup ∧ st.enqLog.Nodup ∧ st.nsInsertLog.Nodup := by
  obtain ⟨st, slp, hrun, heq⟩ := audit_success env t cfg W startPath dir date c hconn
  refine ⟨st, slp, heq, ?_⟩
  generalize hini : (if startPath = ['/'] then ([] : PStr) else startPath) = ini at hrun
  have henq : st.enqLog.Nodup := by
    have hsub := runQueue_subperm cfg t.size _ _ 0 st slp hrun
    have hrw : ({ emptySt with enqLog := [ini] } : AuditSt).enqLog ++
        queuePathsBelow [(ini, t)] = allPathsFrom ini t := by
      rw [allPathsFrom_eq]
      simp [emptySt, queuePathsBelow]
    rw [hrw] at hsub
    exact nodup_of_subperm hsub (nodup_allPathsFrom t hwf ini)
  have hvis : st.visitLog.Nodup := by
    have hd := runQueue_drained cfg t.size _ _ 0 st slp hrun (by simp [emptySt])
    exact hd ▸ henq
  have hinv := runQueue_inserts cfg t.size _ _ 0 st slp hrun
    (by
      intro it hit
      rcases List.mem_cons.mp hit with rfl | hit
      · exact hwf
      · cases hit)
    (by intro x hx; simp [emptySt] at hx)
    (by simp [emptySt])
    (by simp [emptySt])
  have hins : st.nsInsertLog.Nodup := by
    rw [hinv.2]
    refine List.Nodup.map_on ?_ ((List.drop_sublist 1 _).nodup henq)
    intro x hx y hy hxy
    have hcx : rstripSlash x ++ ['/'] = x := hinv.1 x hx
    have hcy : rstripSlash y ++ ['/'] = y := hinv.1 y hy
    rw [← hcx, ← hcy, hxy]
  exact ⟨hvis, henq, hins⟩

/-- C2 witness: the well-formed tree with children `ok/` and `secret/`
(the latter with a forbidden mount listing), audited with two workers. -/
theorem audit_visits_once_witness :
    ∃ st slp,
      audit_cluster envOK treeForbidden cfgFast 2 [] "outputs" "20260101" =
        { connError := none, st := st, sleepTotal := slp, sentinels := 2, joined := 2,
          files := reportFiles "outputs" "prod" "20260101" st } ∧
      st.visitLog.Nodup ∧ st.enqLog.Nodup ∧ st.nsInsertLog.Nodup :=
  audit_visits_once envOK treeForbidden cfgFast 2 [] "outputs" "20260101" "prod"
    rfl (by decide)
